import Mathlib

/-!
# Verification of the Valut exchange-rate reconciler

Shallow embedding of the Valut service (`src/main.rs`, `src/exchange_rate.rs`,
`src/val_curs.rs`): a scheduler/retry loop that periodically fetches a daily
currency feed, parses decimal rates, and reconciles them into a keyed store of
`exchange_rates` rows.

Modelling conventions:
* `rust_decimal::Decimal` values are embedded as an integer mantissa together
  with a decimal scale (power-of-ten denominator), exactly as the Rust type
  stores them: 96-bit mantissa capacity (`2^96`), maximum scale 28.  Equality
  (`==`/`!=` in Rust) is value equality after rescaling, embedded as `valEq`.
  Arithmetic that cannot represent its exact result rounds at the capacity
  boundary; the rounding direction at the very last digit (half-up versus
  banker's) is never observable in any statement proved here, and the scale
  chosen for exact results is not observable either (only values are compared).
* `f64` arithmetic in `next_delay` is embedded exactly as dyadic rationals
  (integer mantissa times a power of two) with IEEE-754 round-to-nearest-even
  at 53 significant bits; all values reached are normal, so subnormal and
  infinity handling is irrelevant.  `5.0_f64.sqrt()` is the correctly rounded
  double, whose mantissa is pinned by `sqrt5_mant_correct` below.
* `chrono` dates are day numbers (`ℤ`, days since 1970-01-01) and timestamps
  are epoch seconds (`ℤ`).  The `checked_sub_days`/`checked_add_days`/
  `pred_opt` failure branches guard the ±262143-year ends of chrono's date
  range and are modelled as unreachable (dates are unbounded here).
* The Postgres store is a list of rows plus an id counter; SQL point lookups,
  inserts and updates-by-id are embedded directly.  Connectivity errors,
  logging and the HTTP server are outside every claim and are elided; the one
  `println!` diagnostic that a claim mentions is returned as data.
* Integer overflow follows Rust release-profile semantics (wrapping), which is
  how `i32::abs` on `i32::MIN` behaves in the deployed binary.
-/

namespace Valut

/-! ## The Decimal model (`rust_decimal::Decimal`) -/

/-- A `rust_decimal::Decimal`: value is `mant / 10 ^ scale`.  The Rust type
keeps a sign, a 96-bit magnitude and a scale `≤ 28`; we keep the sign inside
the integer mantissa. -/
structure Decimal where
  mant : ℤ
  scale : ℕ
deriving DecidableEq

/-- Decimal mantissa capacity: `2 ^ 96`. -/
def decCap : ℕ := 2 ^ 96

/-- Maximum decimal scale supported by `rust_decimal`. -/
def maxScale : ℕ := 28

/-- The rational value of a `Decimal`.  Used only in statements. -/
def Decimal.toRat (d : Decimal) : ℚ := (d.mant : ℚ) / (10 : ℚ) ^ d.scale

/-- Value equality of two decimals (Rust `==` / `!=` rescale and compare). -/
def Decimal.valEq (a b : Decimal) : Bool :=
  a.mant * (10 : ℤ) ^ b.scale == b.mant * (10 : ℤ) ^ a.scale

/-- Rust `Decimal::is_zero`. -/
def Decimal.isZero (d : Decimal) : Bool := d.mant == 0

/-- The `Decimal::ONE`. -/
def Decimal.one : Decimal := ⟨1, 0⟩

/-- Divide a mantissa by ten, rounding half away from zero (the rounding
rust_decimal applies when it must drop a trailing digit). -/
def roundDiv10 (m : ℤ) : ℤ := m.sign * ((m.natAbs + 5) / 10)

/-- Bring a raw (mantissa, scale) result back into Decimal capacity: while the
mantissa exceeds 96 bits or the scale exceeds 28, drop the last digit with
rounding; fail (`none`) if the value still cannot be represented (overflow). -/
def reduceCap (m : ℤ) : ℕ → Option Decimal
  | 0 => if m.natAbs < decCap then some ⟨m, 0⟩ else none
  | s + 1 =>
    if m.natAbs < decCap ∧ s + 1 ≤ maxScale then some ⟨m, s + 1⟩
    else reduceCap (roundDiv10 m) s

/-- Rust `Decimal::checked_mul`: exact product, then capacity reduction;
`none` on overflow. -/
def Decimal.checkedMul (a b : Decimal) : Option Decimal :=
  reduceCap (a.mant * b.mant) (a.scale + b.scale)

/-- The scale rust_decimal's division settles on: the largest scale `≤ 28`
whose mantissa still fits in 96 bits (`none` only if even the integer part
overflows). `n / den` is the magnitude of the exact quotient. -/
def fitScale (n den : ℕ) : Option ℕ :=
  ((List.range (maxScale + 1)).filter fun e => n * 10 ^ e / den < decCap).max?

/-- Rust `Decimal::checked_div`: `none` on division by zero or overflow,
otherwise the exact quotient rounded at the chosen scale.
`(2 * (n * 10 ^ e) + den) / (2 * den)` is `⌊n * 10 ^ e / den + 1/2⌋`. -/
def Decimal.checkedDiv (a b : Decimal) : Option Decimal :=
  if b.mant = 0 then none
  else
    let n : ℕ := a.mant.natAbs * 10 ^ b.scale
    let den : ℕ := b.mant.natAbs * 10 ^ a.scale
    (fitScale n den).map fun e =>
      ⟨(a.mant * b.mant).sign * ((2 * (n * 10 ^ e) + den) / (2 * den)), e⟩

/-! ## The rate parser (`parse_decimal_string`, `normalize_decimal_string`) -/

/-- Numeric value of a digit character. -/
def digitVal (c : Char) : ℕ := c.toNat - '0'.toNat

/-- Lex the digits of a decimal literal: accumulates the mantissa and the
number of digits after the decimal point.  Mirrors rust_decimal's `from_str`
lexer: at most one `.`, a digit required before the point and at least one
after it, `_` separators allowed after a digit, anything else rejected. -/
def scanMantissa : List Char → ℕ → ℕ → Bool → Bool → Option (ℕ × ℕ)
  | [], m, s, seenDot, seenDigit =>
    if seenDigit ∧ (seenDot → 0 < s) then some (m, s) else none
  | c :: rest, m, s, seenDot, seenDigit =>
    if c.isDigit then
      scanMantissa rest (m * 10 + digitVal c) (if seenDot then s + 1 else s)
        seenDot true
    else if c = '.' then
      if seenDot ∨ ¬seenDigit then none
      else scanMantissa rest m s true seenDigit
    else if c = '_' then
      if seenDigit then scanMantissa rest m s seenDot seenDigit else none
    else none

/-- Rust `Decimal::from_str` on a character list: optional sign, digit scan,
then capacity reduction. -/
def decFromChars (cs : List Char) : Option Decimal :=
  match cs with
  | '+' :: rest =>
    (scanMantissa rest 0 0 false false).bind fun p => reduceCap (p.1 : ℤ) p.2
  | '-' :: rest =>
    (scanMantissa rest 0 0 false false).bind fun p => reduceCap (-(p.1 : ℤ)) p.2
  | rest =>
    (scanMantissa rest 0 0 false false).bind fun p => reduceCap (p.1 : ℤ) p.2

/-- Rust `str::parse::<i32>` on a character list: optional sign, one or more
digits, `i32` range check. -/
def parseI32 (cs : List Char) : Option ℤ :=
  let core : List Char → Option ℤ := fun ds =>
    if ds ≠ [] ∧ ds.all Char.isDigit then
      some ((ds.foldl (fun acc c => acc * 10 + digitVal c) 0 : ℕ) : ℤ)
    else none
  let signed : Option ℤ :=
    match cs with
    | '+' :: rest => core rest
    | '-' :: rest => (core rest).map (- ·)
    | rest => core rest
  signed.bind fun v =>
    if -(2 ^ 31) ≤ v ∧ v < 2 ^ 31 then some v else none

/-- Rust `i32::abs` under release-profile overflow semantics: wrapping, so
`i32::MIN.abs() = i32::MIN` (negative). -/
def i32Abs (z : ℤ) : ℤ := if z = -(2 ^ 31) then z else |z|

/-- The `for _ in 0..exponent.abs()` loop of `parse_decimal_string`: start
from `Decimal::ONE` and `checked_mul` by ten at every step. -/
def tenPowChecked : ℕ → Option Decimal
  | 0 => some Decimal.one
  | k + 1 => (tenPowChecked k).bind fun p => p.checkedMul ⟨10, 0⟩

/-- The `normalize_decimal_string`: replace every comma with a period. -/
def normalize_decimal_string (cs : List Char) : List Char :=
  cs.map fun c => if c = ',' then '.' else c

/-- The `parse_decimal_string`: split at the first `e`/`E` if present, parse
mantissa and exponent, build `10 ^ |exponent|` by checked multiplication, then
multiply (exponent `≥ 0`) or divide (exponent `< 0`) the mantissa by it;
without a marker, plain `Decimal::from_str`. -/
def parse_decimal_string (cs : List Char) : Option Decimal :=
  match cs.findIdx? (fun c => c = 'e' || c = 'E') with
  | some i =>
    (decFromChars (cs.take i)).bind fun mantissa =>
    (parseI32 (cs.drop (i + 1))).bind fun exponent =>
    (tenPowChecked (i32Abs exponent).toNat).bind fun power =>
    if 0 ≤ exponent then mantissa.checkedMul power else mantissa.checkedDiv power
  | none => decFromChars cs

/-! ## The feed document model (`val_curs.rs`, `get_curs_map`) -/

/-- One `<Valute>` entry of the feed document. -/
structure Valute where
  char_code : String
  vunit_rate : String

/-- The deserialized feed document. -/
structure ValCurs where
  valute : List Valute

/-- The `HashMap::insert`: overwrite the value under an existing key, otherwise
add the binding. -/
def mapInsert (m : List (String × Decimal)) (k : String) (v : Decimal) :
    List (String × Decimal) :=
  if m.any fun p => p.1 == k then
    m.map fun p => if p.1 == k then (k, v) else p
  else m ++ [(k, v)]

/-- The `HashMap::get`. -/
def mapGet (m : List (String × Decimal)) (k : String) : Option Decimal :=
  (m.find? fun p => p.1 == k).map (·.2)

/-- The `get_curs_map`: normalize and parse each entry's `VunitRate`; entries that
fail to parse are skipped. -/
def get_curs_map (vc : ValCurs) : List (String × Decimal) :=
  vc.valute.foldl
    (fun m v =>
      match parse_decimal_string (normalize_decimal_string v.vunit_rate.data) with
      | some value => mapInsert m v.char_code value
      | none => m)
    []

/-! ## The store model (`exchange_rate.rs`, `set_exchange_rate`) -/

/-- One `exchange_rates` row (`ExchangeRate` in `exchange_rate.rs`); `id` is a
store-assigned unique identifier, dates are day numbers, timestamps epoch
seconds. -/
structure ExchangeRate where
  id : ℕ
  from_currency : String
  to_currency : String
  rate : Decimal
  date : ℤ
  created_at : ℤ
  updated_at : ℤ
deriving DecidableEq

/-- The `exchange_rates` table plus the id generator. -/
structure Store where
  rows : List ExchangeRate
  nextId : ℕ
deriving DecidableEq

/-- The `SELECT … WHERE from_currency = $1 AND to_currency = $2 AND date = $3
… fetch_optional` lookup. -/
def findRow (s : Store) (f t : String) (d : ℤ) : Option ExchangeRate :=
  s.rows.find? fun r => r.from_currency == f && r.to_currency == t && r.date == d

/-- The `set_exchange_rate`: look up by natural key; update rate and `updated_at`
when the stored rate differs in value, do nothing when equal, insert a fresh
row (`created_at = updated_at = NOW()`) when absent.  The boolean records
whether a write was issued (observable in Rust as the UPDATE/INSERT). -/
def set_exchange_rate (d : ℤ) (f t : String) (rate : Decimal) (s : Store)
    (now : ℤ) : Store × Bool :=
  match findRow s f t d with
  | some row =>
    if !(row.rate.valEq rate) then
      ({ s with
          rows := s.rows.map fun x =>
            if x.id == row.id then { x with rate := rate, updated_at := now }
            else x },
        true)
    else (s, false)
  | none =>
    ({ rows := s.rows ++ [⟨s.nextId, f, t, rate, d, now, now⟩],
       nextId := s.nextId + 1 },
      true)

/-! ## The reconciler (`update_stored_exchange_rates`) -/

/-- The base currency (`let rub = "RUB".to_string()`). -/
def rub : String := "RUB"

/-- The `anyhow` error values a pass can surface, by provenance: a tracked
currency absent from the fetched map, a failed fetch/parse for a date, or the
`start_date > end_date` guard of `iterate`. -/
inductive RecErr where
  | missingRate (c : String) (d : ℤ)
  | fetchFailed (d : ℤ)
  | badRange
deriving DecidableEq

/-- How a reconciliation step ends: normal return, an `anyhow` error (the
store reached so far persists — no rollback), or a Rust panic (the
`Decimal::ONE / rate` division panics on a zero rate). -/
inductive Outcome where
  | ok (s : Store)
  | err (e : RecErr) (s : Store)
  | panic (s : Store)
deriving DecidableEq

/-- The store carried by an outcome (writes performed before the abort). -/
def Outcome.store : Outcome → Store
  | .ok s => s
  | .err _ s => s
  | .panic s => s

/-- The `update_stored_exchange_rates`: for each tracked currency in order, look
up the fetched rate (missing ⇒ error), print a diagnostic when it is zero,
compute the reverse rate by decimal division (zero rate ⇒ the division
panics), then upsert the (currency→RUB, rate) and (RUB→currency, reverse)
rows.  The second component collects the zero-rate `println!` diagnostics
(currency, date). -/
def update_stored_exchange_rates (d : ℤ) (rates : List (String × Decimal))
    (currencies : List String) (s : Store) (now : ℤ) :
    Outcome × List (String × ℤ) :=
  match currencies with
  | [] => (.ok s, [])
  | c :: rest =>
    match mapGet rates c with
    | none => (.err (.missingRate c d) s, [])
    | some rate =>
      if rate.isZero then (.panic s, [(c, d)])
      else
        match Decimal.checkedDiv Decimal.one rate with
        | none => (.panic s, [])
        | some reverse_rate =>
          let s1 := (set_exchange_rate d c rub rate s now).1
          let s2 := (set_exchange_rate d rub c reverse_rate s1 now).1
          update_stored_exchange_rates d rates rest s2 now

/-- One currency's writes on the success path (both legs committed), used to
describe the store a partially or fully successful pass leaves behind. -/
def stepCurrency (d : ℤ) (rates : List (String × Decimal)) (now : ℤ)
    (s : Store) (c : String) : Store :=
  match mapGet rates c with
  | some rate =>
    match Decimal.checkedDiv Decimal.one rate with
    | some reverse_rate =>
      (set_exchange_rate d rub c reverse_rate
        (set_exchange_rate d c rub rate s now).1 now).1
    | none => s
  | none => s

/-- The store after the success-path writes of a list of currencies. -/
def runStore (d : ℤ) (rates : List (String × Decimal)) (now : ℤ)
    (currencies : List String) (s : Store) : Store :=
  currencies.foldl (stepCurrency d rates now) s

/-! ## The trailing-window pass (`execute`, `iterate`) -/

/-- The `get_currencies`: the hard-coded tracked list. -/
def get_currencies : List String := ["USD", "EUR"]

/-- The dates visited by `iterate`'s `while current_date >= start_date` loop:
`n` consecutive dates counting down from `endD`. -/
def descDates (endD : ℤ) : ℕ → List ℤ
  | 0 => []
  | n + 1 => endD :: descDates (endD - 1) n

/-- The full date list of one pass over `[startD, endD]`, newest first
(empty when the `start_date > end_date` guard fires). -/
def iterDates (startD endD : ℤ) : List ℤ :=
  if startD > endD then [] else descDates endD ((endD - startD).toNat + 1)

/-- The per-date body of `iterate`: fetch + parse the feed for the date
(`get_exchange_rates_for_date`, abstracted as the `fetch` oracle; `none`
covers transport, status and document-parse failures) and reconcile it,
short-circuiting on the first error. -/
def reconcileDates (fetch : ℤ → Option (List (String × Decimal)))
    (currencies : List String) (now : ℤ) :
    List ℤ → Store → Outcome
  | [], s => .ok s
  | d :: rest, s =>
    match fetch d with
    | none => .err (.fetchFailed d) s
    | some rates =>
      match (update_stored_exchange_rates d rates currencies s now).1 with
      | .ok s' => reconcileDates fetch currencies now rest s'
      | out => out

/-- The `iterate`: reject `start_date > end_date`, then walk the dates newest to
oldest. -/
def iterate (fetch : ℤ → Option (List (String × Decimal)))
    (startD endD : ℤ) (s : Store) (now : ℤ) : Outcome :=
  if startD > endD then .err .badRange s
  else reconcileDates fetch get_currencies now (iterDates startD endD) s

/-- The `execute`: one pass over the trailing window from six days before today
through tomorrow. -/
def execute (fetch : ℤ → Option (List (String × Decimal)))
    (today : ℤ) (s : Store) (now : ℤ) : Outcome :=
  iterate fetch (today - 6) (today + 1) s now

/-- The calendar dates a pass started today iterates, newest first. -/
def executeWindow (today : ℤ) : List ℤ := iterDates (today - 6) (today + 1)

/-! ## The f64 backoff function (`next_delay`) -/

/-- A dyadic rational `m * 2 ^ e`: the value set of finite doubles. -/
structure Dyadic where
  m : ℤ
  e : ℤ
deriving DecidableEq

/-- Number of bits of `n` (fueled structural recursion; fuel 300 covers every
mantissa reached here). -/
def bitlen : ℕ → ℕ → ℕ
  | 0, _ => 0
  | fuel + 1, n => if n = 0 then 0 else bitlen fuel (n / 2) + 1

/-- Shift `a` right by `k ≥ 1` bits, rounding to nearest, ties to even. -/
def rshiftRNE (a k : ℕ) : ℕ :=
  let q := a / 2 ^ k
  let r := a % 2 ^ k
  let half := 2 ^ (k - 1)
  if r < half then q
  else if half < r then q + 1
  else if q % 2 = 0 then q else q + 1

/-- IEEE-754 binary64 rounding (round to nearest even, 53 significant bits)
of a dyadic value; all values reached are in the normal range. -/
def roundF64 (x : Dyadic) : Dyadic :=
  if x.m = 0 then ⟨0, 0⟩
  else
    let a := x.m.natAbs
    let L := bitlen 300 a
    if L ≤ 53 then x
    else ⟨x.m.sign * (rshiftRNE a (L - 53) : ℕ), x.e + (L - 53)⟩

/-- f64 addition. -/
def dyAdd (x y : Dyadic) : Dyadic :=
  let lo := min x.e y.e
  roundF64 ⟨x.m * 2 ^ (x.e - lo).toNat + y.m * 2 ^ (y.e - lo).toNat, lo⟩

/-- f64 multiplication. -/
def dyMul (x y : Dyadic) : Dyadic := roundF64 ⟨x.m * y.m, x.e + y.e⟩

/-- f64 division by `2.0` (exact on normal doubles). -/
def dyHalf (x : Dyadic) : Dyadic := roundF64 ⟨x.m, x.e - 1⟩

/-- The `5.0_f64.sqrt()`: the correctly rounded binary64 square root of 5,
`5035177455121576 * 2 ^ (-51)`.  `sqrt5_mant_correct` verifies the mantissa. -/
def sqrt5F64 : Dyadic := ⟨5035177455121576, -51⟩

/-- The `let phi = (1.0 + 5.0_f64.sqrt()) / 2.0`. -/
def phi64 : Dyadic := dyHalf (dyAdd ⟨1, 0⟩ sqrt5F64)

/-- The `value as f64` (exact for every `u64` below `2 ^ 53`; rounded above). -/
def f64OfNat (n : ℕ) : Dyadic := roundF64 ⟨(n : ℤ), 0⟩

/-- The `x.round() as u64` for the nonnegative values reached here: round half
away from zero, i.e. `⌊x + 1/2⌋`. -/
def dyRoundHalfAwayToNat (x : Dyadic) : ℕ :=
  if 0 ≤ x.e then x.m.toNat * 2 ^ x.e.toNat
  else (x.m.toNat + 2 ^ ((-x.e).toNat - 1)) / 2 ^ (-x.e).toNat

/-- The `next_delay`: multiply the previous delay by the golden ratio in f64 and
round to the nearest whole second. -/
def next_delay (value : ℕ) : ℕ :=
  dyRoundHalfAwayToNat (dyMul phi64 (f64OfNat value))

/-! ## The scheduler loop (`main_loop`) -/

/-- The `DELAY_SEC`: the 20-minute inter-run interval, in seconds. -/
def DELAY_SEC : ℕ := 60 * 20

/-- The `RETRY_DELAY_SEC`: the 5-second backoff floor. -/
def RETRYDELAY_SEC : ℕ := 5

/-- The `DateTime::<Utc>::MIN_UTC` (midnight of chrono's minimum date,
`-262144-01-01`) in epoch seconds; no proved statement depends on the exact
value. -/
def MIN_UTC : ℤ := -8334632937600

/-- The `DateTime::date_naive` as a day number (UTC has no leap seconds). -/
def date_naive (t : ℤ) : ℤ := Int.fdiv t 86400

/-- The `DateTime::hour` (hour of day, 0–23). -/
def hourOfDay (t : ℤ) : ℤ := Int.emod t 86400 / 3600

/-- The mutable state of `main_loop`. -/
structure LoopState where
  retry_count : ℕ
  delay_sec : ℕ
  last_execution : ℤ
  last_try : ℤ
deriving DecidableEq

/-- The state `main_loop` starts from. -/
def initialLoopState : LoopState := ⟨0, 0, MIN_UTC, MIN_UTC⟩

/-- The attempt guard of `main_loop`: `(now >= next_execution || date changed
|| hour changed) && now >= next_try`. -/
def dueGuard (s : LoopState) (now : ℤ) : Bool :=
  (decide (s.last_execution + (DELAY_SEC : ℤ) ≤ now) ||
      decide (date_naive s.last_execution ≠ date_naive now) ||
      decide (hourOfDay s.last_execution ≠ hourOfDay now)) &&
    decide (s.last_try + (s.delay_sec : ℤ) ≤ now)

/-- The failure branch of `main_loop`: bump the failure count and move the
delay to the floor (from zero) or through `next_delay`. -/
def onFailure (s : LoopState) : LoopState :=
  { s with
      retry_count := s.retry_count + 1,
      delay_sec :=
        match s.delay_sec with
        | 0 => RETRYDELAY_SEC
        | n => next_delay n }

/-- The success branch of `main_loop`: counters reset, `last_execution`
recorded, `last_try` cleared to `MIN_UTC`. -/
def onSuccess (nowDone : ℤ) : LoopState := ⟨0, 0, nowDone, MIN_UTC⟩

/-- One 1-second tick of `main_loop`.  `now` is the guard's clock sample,
`nowAttempt`/`nowDone` the later `Utc::now()` samples, `success` the pass
outcome.  Returns the next state, whether a pass was attempted, and whether
the `retry_count > 10` exit fires at the end of the tick. -/
def tick (s : LoopState) (now nowAttempt nowDone : ℤ) (success : Bool) :
    LoopState × Bool × Bool :=
  let (s', attempted) :=
    if dueGuard s now then
      ((if success then onSuccess nowDone
        else onFailure { s with last_try := nowAttempt }),
        true)
    else (s, false)
  (s', attempted, decide (s'.retry_count > 10))

/-! ## Supporting lemmas -/

/-- The pinned mantissa of `sqrt5F64` is the correctly rounded binary64 value
of `√5`: it is the integer nearest to `√5 * 2^51` (no tie, as `√5` is
irrational), witnessed by squaring. -/
theorem sqrt5_mant_correct :
    (2 * 5035177455121576 - 1) ^ 2 < 5 * 2 ^ 104 ∧
      5 * 2 ^ 104 < (2 * 5035177455121576 + 1) ^ 2 := by decide

theorem onFailure_retry (s : LoopState) :
    (onFailure s).retry_count = s.retry_count + 1 := rfl

theorem onFailure_delay (s : LoopState) :
    (onFailure s).delay_sec =
      match s.delay_sec with
      | 0 => RETRYDELAY_SEC
      | n => next_delay n := rfl

theorem iterate_retry_count (s0 : LoopState) (h : s0.retry_count = 0) :
    ∀ k, (onFailure^[k] s0).retry_count = k := by
  intro k
  induction k with
  | zero => simpa using h
  | succ k ih => rw [Function.iterate_succ_apply', onFailure_retry, ih]

/-! ## Claim C3: backoff sequence and failure cutoff -/

/-- C3: starting from the success state (zero consecutive failures, zero
backoff delay), successive failures set the backoff delay to 5, 8, 13, 21,
34, … seconds — the first failure uses the 5-second floor, each later one
multiplies the previous delay by the (f64) golden ratio and rounds to the
nearest second — and the `retry_count > 10` loop exit fires exactly from the
11th consecutive failure on. -/
theorem backoff_sequence_and_failure_cutoff (s0 : LoopState)
    (h1 : s0.retry_count = 0) (h2 : s0.delay_sec = 0) :
    (onFailure^[1] s0).delay_sec = 5 ∧
    (onFailure^[2] s0).delay_sec = 8 ∧
    (onFailure^[3] s0).delay_sec = 13 ∧
    (onFailure^[4] s0).delay_sec = 21 ∧
    (onFailure^[5] s0).delay_sec = 34 ∧
    (∀ k, (onFailure^[k] s0).retry_count = k) ∧
    (∀ k, ((onFailure^[k] s0).retry_count > 10 ↔ 11 ≤ k)) := by
  have hd1 : (onFailure^[1] s0).delay_sec = 5 := by
    rw [Function.iterate_one, onFailure_delay, h2]
    decide
  have hd2 : (onFailure^[2] s0).delay_sec = 8 := by
    rw [show (2 : ℕ) = 1 + 1 from rfl, Function.iterate_succ_apply',
      onFailure_delay, hd1]
    decide
  have hd3 : (onFailure^[3] s0).delay_sec = 13 := by
    rw [show (3 : ℕ) = 2 + 1 from rfl, Function.iterate_succ_apply',
      onFailure_delay, hd2]
    decide
  have hd4 : (onFailure^[4] s0).delay_sec = 21 := by
    rw [show (4 : ℕ) = 3 + 1 from rfl, Function.iterate_succ_apply',
      onFailure_delay, hd3]
    decide
  have hd5 : (onFailure^[5] s0).delay_sec = 34 := by
    rw [show (5 : ℕ) = 4 + 1 from rfl, Function.iterate_succ_apply',
      onFailure_delay, hd4]
    decide
  refine ⟨hd1, hd2, hd3, hd4, hd5, iterate_retry_count s0 h1, fun k => ?_⟩
  rw [iterate_retry_count s0 h1 k]
  omega

/-- Witness for C3 at the concrete success state `⟨0, 0, 0, 0⟩`. -/
theorem backoff_sequence_and_failure_cutoff_witness :
    (onFailure^[1] (⟨0, 0, 0, 0⟩ : LoopState)).delay_sec = 5 ∧
    (onFailure^[2] (⟨0, 0, 0, 0⟩ : LoopState)).delay_sec = 8 ∧
    (onFailure^[3] (⟨0, 0, 0, 0⟩ : LoopState)).delay_sec = 13 ∧
    (onFailure^[4] (⟨0, 0, 0, 0⟩ : LoopState)).delay_sec = 21 ∧
    (onFailure^[5] (⟨0, 0, 0, 0⟩ : LoopState)).delay_sec = 34 ∧
    (onFailure^[10] (⟨0, 0, 0, 0⟩ : LoopState)).retry_count = 10 ∧
    ¬ (onFailure^[10] (⟨0, 0, 0, 0⟩ : LoopState)).retry_count > 10 ∧
    (onFailure^[11] (⟨0, 0, 0, 0⟩ : LoopState)).retry_count > 10 := by
  obtain ⟨d1, d2, d3, d4, d5, hrc, hbrk⟩ :=
    backoff_sequence_and_failure_cutoff ⟨0, 0, 0, 0⟩ rfl rfl
  exact ⟨d1, d2, d3, d4, d5, hrc 10, by rw [hbrk 10]; omega,
    (hbrk 11).mpr (by omega)⟩

/-! ## Claim C8: the attempt guard of the scheduler tick -/

theorem dueGuard_iff (s : LoopState) (now : ℤ) :
    dueGuard s now = true ↔
      ((1200 ≤ now - s.last_execution ∨
          date_naive s.last_execution ≠ date_naive now ∨
          hourOfDay s.last_execution ≠ hourOfDay now) ∧
        (s.delay_sec : ℤ) ≤ now - s.last_try) := by
  unfold dueGuard
  simp only [Bool.and_eq_true, Bool.or_eq_true, decide_eq_true_eq, DELAY_SEC]
  constructor
  · rintro ⟨h1, h2⟩
    refine ⟨?_, by omega⟩
    rcases h1 with (h | h) | h
    · left; omega
    · right; left; exact h
    · right; right; exact h
  · rintro ⟨h1, h2⟩
    refine ⟨?_, by omega⟩
    rcases h1 with h | h | h
    · left; left; omega
    · left; right; exact h
    · right; exact h

/-- C8: on a tick of `main_loop`, a pass is attempted if and only if (the
20-minute interval has elapsed since the last success, or the calendar date
changed since it, or the hour-of-day changed since it) and the current
backoff delay has elapsed since the last attempt. -/
theorem tick_attempts_iff (s : LoopState) (now nowAttempt nowDone : ℤ)
    (success : Bool) :
    (tick s now nowAttempt nowDone success).2.1 = true ↔
      ((1200 ≤ now - s.last_execution ∨
          date_naive s.last_execution ≠ date_naive now ∨
          hourOfDay s.last_execution ≠ hourOfDay now) ∧
        (s.delay_sec : ℤ) ≤ now - s.last_try) := by
  rw [← dueGuard_iff]
  unfold tick
  by_cases h : dueGuard s now = true
  · simp [h]
  · simp [h]

/-! ## Claim C4: the trailing window of a pass -/

/-- C4 counterexample: the window a pass iterates has 8 dates, not 7 — six
days back through tomorrow is 8 calendar dates. -/
theorem pass_window_not_seven : ((executeWindow 0).length = 7) = False := by
  decide

/-- C4 (amended): a pass iterates exactly 8 calendar dates, from 6 days
before today through tomorrow, newest to oldest, and stops at the first
per-date error (failed fetch/parse, reconcile error, or panic). -/
theorem pass_window_and_short_circuit :
    (∀ today : ℤ, executeWindow today =
      [today + 1, today, today - 1, today - 2, today - 3, today - 4,
        today - 5, today - 6]) ∧
    (∀ today : ℤ, (executeWindow today).length = 8) ∧
    (∀ fetch today s now, execute fetch today s now =
      reconcileDates fetch get_currencies now (executeWindow today) s) ∧
    (∀ fetch cs now d rest s, fetch d = none →
      reconcileDates fetch cs now (d :: rest) s = .err (.fetchFailed d) s) ∧
    (∀ fetch cs now d rest s rates e s', fetch d = some rates →
      (update_stored_exchange_rates d rates cs s now).1 = .err e s' →
      reconcileDates fetch cs now (d :: rest) s = .err e s') ∧
    (∀ fetch cs now d rest s rates s', fetch d = some rates →
      (update_stored_exchange_rates d rates cs s now).1 = .panic s' →
      reconcileDates fetch cs now (d :: rest) s = .panic s') := by
  have hwin : ∀ today : ℤ, executeWindow today =
      [today + 1, today, today - 1, today - 2, today - 3, today - 4,
        today - 5, today - 6] := by
    intro today
    rw [executeWindow, iterDates, if_neg (by omega),
      show (today + 1 - (today - 6)).toNat + 1 = 8 from by omega]
    simp [descDates]
    omega
  refine ⟨hwin, fun today => by rw [hwin today]; rfl,
    fun fetch today s now => ?_, fun fetch cs now d rest s h => ?_,
    fun fetch cs now d rest s rates e s' hf hu => ?_,
    fun fetch cs now d rest s rates s' hf hu => ?_⟩
  · rw [execute, iterate, if_neg (by omega)]; rfl
  · simp [reconcileDates, h]
  · simp [reconcileDates, hf, hu]
  · simp [reconcileDates, hf, hu]

/-- Witness for C4 at today `0`, an empty store, and oracles exercising both
short-circuit branches. -/
theorem pass_window_and_short_circuit_witness :
    executeWindow 0 = [1, 0, -1, -2, -3, -4, -5, -6] ∧
    (executeWindow 0).length = 8 ∧
    reconcileDates (fun _ => none) get_currencies 0 ((3 : ℤ) :: []) ⟨[], 0⟩ =
      .err (.fetchFailed 3) ⟨[], 0⟩ ∧
    reconcileDates (fun _ => some []) (("USD") :: []) 0 ((3 : ℤ) :: []) ⟨[], 0⟩ =
      .err (.missingRate ("USD") 3) ⟨[], 0⟩ ∧
    reconcileDates (fun _ => some [(("USD"), ⟨0, 0⟩)]) (("USD") :: []) 0
      ((3 : ℤ) :: []) ⟨[], 0⟩ = .panic ⟨[], 0⟩ := by
  obtain ⟨hw, hl, _, hfe, herr, hpan⟩ := pass_window_and_short_circuit
  refine ⟨by rw [hw 0]; norm_num, hl 0, hfe _ _ 0 3 [] ⟨[], 0⟩ rfl,
    herr (fun _ => some []) _ 0 3 [] ⟨[], 0⟩ [] _ ⟨[], 0⟩ rfl (by decide),
    hpan (fun _ => some [(("USD"), ⟨0, 0⟩)]) _ 0 3 [] ⟨[], 0⟩ _ ⟨[], 0⟩ rfl
      (by decide)⟩

/-! ## Claim C2: a zero fetched rate -/

/-- C2 counterexample: with a zero fetched rate the reconciler does print the
diagnostic, but the reverse-rate computation then panics (`Decimal::ONE /
rate` panics on zero); no error value is returned — the claim's
`ReconcileError::DivisionByZero` error result does not happen (no such error
value even exists in the program). -/
theorem zero_rate_no_error_value :
    (update_stored_exchange_rates 0 [(("USD"), ⟨0, 0⟩)] (("USD") :: [])
        ⟨[], 0⟩ 0).1 = Outcome.panic ⟨[], 0⟩ ∧
    ¬ ∃ e s', (update_stored_exchange_rates 0 [(("USD"), ⟨0, 0⟩)]
        (("USD") :: []) ⟨[], 0⟩ 0).1 = Outcome.err e s' := by
  have h : (update_stored_exchange_rates 0 [(("USD"), ⟨0, 0⟩)]
      (("USD") :: []) ⟨[], 0⟩ 0).1 = Outcome.panic ⟨[], 0⟩ := by decide
  refine ⟨h, ?_⟩
  rintro ⟨e, s', he⟩
  rw [h] at he
  exact Outcome.noConfusion he

/-- C2 (amended): when the fetched rate of the currency under reconciliation
is exactly zero, the reconciler emits the zero-rate diagnostic and the
reverse-rate division then panics, aborting the pass by crash with no
further writes — rather than returning a division-by-zero error value. -/
theorem zero_rate_prints_then_panics (d : ℤ)
    (rates : List (String × Decimal)) (c : String) (cs : List String)
    (s : Store) (now : ℤ) (r : Decimal) (hr : mapGet rates c = some r)
    (hz : r.isZero = true) :
    update_stored_exchange_rates d rates (c :: cs) s now =
      (.panic s, [(c, d)]) := by
  simp [update_stored_exchange_rates, hr, hz]

/-- Witness for C2 with a zero USD rate on an empty store. -/
theorem zero_rate_prints_then_panics_witness :
    update_stored_exchange_rates 5 [(("USD"), ⟨0, 2⟩)] (("USD") :: [])
        ⟨[], 0⟩ 9 = (.panic ⟨[], 0⟩, [(("USD"), 5)]) :=
  zero_rate_prints_then_panics 5 _ ("USD") [] ⟨[], 0⟩ 9 ⟨0, 2⟩ (by decide)
    (by decide)

/-! ## Store invariants and write lemmas -/

/-- Well-formedness the store keeps by construction: row ids are unique and
below the id counter (Postgres primary keys). -/
def StoreWF (s : Store) : Prop :=
  (s.rows.map (·.id)).Nodup ∧ ∀ r ∈ s.rows, r.id < s.nextId

/-- The natural key of a row. -/
def KeyAt (r : ExchangeRate) : String × String × ℤ :=
  (r.from_currency, r.to_currency, r.date)

/-- Natural-key uniqueness (the store's unique constraint). -/
def KeyUnique (s : Store) : Prop := s.rows.Pairwise fun a b => KeyAt a ≠ KeyAt b

/-- The rows of the store involving currency `c` on date `d`. -/
def rowsFor (s : Store) (c : String) (d : ℤ) : List ExchangeRate :=
  s.rows.filter fun r =>
    (r.from_currency == c || r.to_currency == c) && r.date == d

/-- Value equality is reflexive. -/
theorem Decimal.valEq_refl (a : Decimal) : a.valEq a = true := by
  simp [Decimal.valEq]

theorem findRow_eq (s : Store) (f t : String) (d : ℤ) :
    findRow s f t d = s.rows.find? fun r =>
      r.from_currency == f && r.to_currency == t && r.date == d := rfl

/-- The row an update touches keeps its key fields. -/
theorem update_keeps_key (row : ExchangeRate) (rate : Decimal) (now : ℤ)
    (x : ExchangeRate) :
    KeyAt (if x.id == row.id then { x with rate := rate, updated_at := now }
      else x) = KeyAt x := by
  by_cases h : x.id == row.id <;> simp [h, KeyAt]

/-- Find over a list mapped by a function that preserves the predicate. -/
theorem find?_map_of_pred (l : List ExchangeRate)
    (g : ExchangeRate → ExchangeRate) (p : ExchangeRate → Bool)
    (hp : ∀ x, p (g x) = p x) :
    (l.map g).find? p = (l.find? p).map g := by
  induction l with
  | nil => rfl
  | cons a l ih =>
    by_cases h : p a
    · simp [List.find?_cons, hp, h]
    · simp only [List.map_cons, List.find?_cons, hp, h]
      simpa using ih

/-- Filtering a map that fixes every element satisfying the predicate. -/
theorem filter_map_fix (l : List ExchangeRate)
    (g : ExchangeRate → ExchangeRate) (p : ExchangeRate → Bool)
    (hp : ∀ x, p (g x) = p x) (hfix : ∀ x ∈ l, p x = true → g x = x) :
    (l.map g).filter p = l.filter p := by
  induction l with
  | nil => rfl
  | cons a l ih =>
    by_cases h : p a
    · simp only [List.map_cons, List.filter_cons, hp, h, if_pos,
        hfix a (by simp) h]
      rw [ih fun x hx hpx => hfix x (by simp [hx]) hpx]
    · simp only [List.map_cons, List.filter_cons, hp, h]
      simpa using ih fun x hx hpx => hfix x (by simp [hx]) hpx

/-- After `set_exchange_rate` the row under the written key exists and holds
the written value. -/
theorem findRow_set_self (d : ℤ) (f t : String) (rate : Decimal) (s : Store)
    (now : ℤ) :
    ∃ row, findRow (set_exchange_rate d f t rate s now).1 f t d = some row ∧
      row.rate.valEq rate = true ∧ row.from_currency = f ∧
      row.to_currency = t ∧ row.date = d := by
  unfold set_exchange_rate
  cases h : findRow s f t d with
  | none =>
    refine ⟨⟨s.nextId, f, t, rate, d, now, now⟩, ?_, Decimal.valEq_refl rate,
      rfl, rfl, rfl⟩
    rw [findRow_eq] at h ⊢
    simp [List.find?_append, h]
  | some row =>
    have hkey := List.find?_some (findRow_eq s f t d ▸ h)
    simp only [Bool.and_eq_true, beq_iff_eq] at hkey
    by_cases hv : row.rate.valEq rate
    · refine ⟨row, ?_, hv, hkey.1.1, hkey.1.2, hkey.2⟩
      simpa [hv] using h
    · simp only [hv, Bool.not_false, if_pos]
      refine ⟨{ row with rate := rate, updated_at := now }, ?_,
        Decimal.valEq_refl rate, hkey.1.1, hkey.1.2, hkey.2⟩
      rw [findRow_eq]
      simp only
      rw [find?_map_of_pred _ _ _
        (fun x => by by_cases hid : x.id == row.id <;> simp [hid])]
      rw [findRow_eq] at h
      simp [h]

/-- The `set_exchange_rate` keeps the store well-formed. -/
theorem StoreWF_set (d : ℤ) (f t : String) (rate : Decimal) (s : Store)
    (now : ℤ) (hWF : StoreWF s) :
    StoreWF (set_exchange_rate d f t rate s now).1 := by
  obtain ⟨hnd, hlt⟩ := hWF
  unfold set_exchange_rate
  cases h : findRow s f t d with
  | none =>
    refine ⟨?_, ?_⟩
    · simp only [List.map_append, List.map_cons, List.map_nil]
      rw [List.nodup_append]
      refine ⟨hnd, List.nodup_singleton _, ?_⟩
      intro a ha hb
      simp only [List.mem_singleton] at hb
      obtain ⟨r, hr, hrid⟩ := List.mem_map.mp ha
      exact absurd (hrid.trans hb) (Nat.ne_of_lt (hlt r hr))
    · intro r hr
      rcases List.mem_append.mp hr with hr | hr
      · exact Nat.lt_succ_of_lt (hlt r hr)
      · simp only [List.mem_singleton] at hr
        subst hr
        exact Nat.lt_succ_self _
  | some row =>
    by_cases hv : row.rate.valEq rate
    · simpa [hv] using ⟨hnd, hlt⟩
    · simp only [hv, Bool.not_false, if_pos]
      have hids : (s.rows.map fun x =>
          if x.id == row.id then { x with rate := rate, updated_at := now }
          else x).map (·.id) = s.rows.map (·.id) := by
        rw [List.map_map]
        refine List.map_congr_left fun x _ => ?_
        by_cases hid : x.id = row.id <;> simp [hid]
      refine ⟨?_, ?_⟩
      · show ((s.rows.map fun x =>
            if x.id == row.id then { x with rate := rate, updated_at := now }
            else x).map (·.id)).Nodup
        rw [hids]
        exact hnd
      · intro r hr
        obtain ⟨x, hx, hxr⟩ := List.mem_map.mp hr
        subst hxr
        by_cases hid : x.id = row.id <;> simpa [hid] using hlt x hx

/-- A write under one natural key does not disturb the row under another. -/
theorem findRow_set_other (d : ℤ) (f t : String) (rate : Decimal) (s : Store)
    (now : ℤ) (f' t' : String) (d' : ℤ) (hWF : StoreWF s)
    (hne : ¬(f' = f ∧ t' = t ∧ d' = d)) :
    findRow (set_exchange_rate d f t rate s now).1 f' t' d' =
      findRow s f' t' d' := by
  unfold set_exchange_rate
  cases h : findRow s f t d with
  | none =>
    rw [findRow_eq, findRow_eq]
    simp only [List.find?_append]
    have hnew : ¬((⟨s.nextId, f, t, rate, d, now, now⟩ :
        ExchangeRate).from_currency == f' &&
        (⟨s.nextId, f, t, rate, d, now, now⟩ :
          ExchangeRate).to_currency == t' &&
        (⟨s.nextId, f, t, rate, d, now, now⟩ :
          ExchangeRate).date == d') = true := by
      simp only [Bool.and_eq_true, beq_iff_eq]
      intro hc
      exact hne ⟨hc.1.1.symm, hc.1.2.symm, hc.2.symm⟩
    cases hfound : s.rows.find? fun r =>
        r.from_currency == f' && r.to_currency == t' && r.date == d' <;>
      simp [hfound, List.find?_cons, hnew]
  | some row =>
    have hkey := List.find?_some (findRow_eq s f t d ▸ h)
    simp only [Bool.and_eq_true, beq_iff_eq] at hkey
    by_cases hv : row.rate.valEq rate
    · simp [hv]
    · simp only [hv, Bool.not_false, if_pos]
      rw [findRow_eq, findRow_eq]
      simp only
      rw [find?_map_of_pred _ _ _
        (fun x => by by_cases hid : x.id == row.id <;> simp [hid])]
      cases hfound : s.rows.find? fun r =>
          r.from_currency == f' && r.to_currency == t' && r.date == d' with
      | none => rfl
      | some x =>
        have hxkey := List.find?_some hfound
        simp only [Bool.and_eq_true, beq_iff_eq] at hxkey
        have hxid : ¬ x.id = row.id := by
          intro hid
          have hxmem := List.mem_of_find?_eq_some hfound
          have hrmem := List.mem_of_find?_eq_some (findRow_eq s f t d ▸ h)
          have hxr : x = row := by
            have hinj := List.inj_on_of_nodup_map hWF.1
            exact hinj hxmem hrmem hid
          subst hxr
          exact hne ⟨hxkey.1.1.symm.trans hkey.1.1,
            hxkey.1.2.symm.trans hkey.1.2, hxkey.2.symm.trans hkey.2⟩
        simp [hxid]

/-- A write whose key does not involve currency `c` on date `dd` leaves the
rows for `(c, dd)` untouched (any date `dd`). -/
theorem rowsFor_set_other (d : ℤ) (f t : String) (rate : Decimal) (s : Store)
    (now : ℤ) (c : String) (dd : ℤ) (hWF : StoreWF s)
    (hf : f ≠ c) (ht : t ≠ c) :
    rowsFor (set_exchange_rate d f t rate s now).1 c dd = rowsFor s c dd := by
  unfold set_exchange_rate
  cases h : findRow s f t d with
  | none =>
    unfold rowsFor
    simp only [List.filter_append]
    have hnew : ¬(((⟨s.nextId, f, t, rate, d, now, now⟩ :
        ExchangeRate).from_currency == c ||
        (⟨s.nextId, f, t, rate, d, now, now⟩ :
          ExchangeRate).to_currency == c) &&
        (⟨s.nextId, f, t, rate, d, now, now⟩ :
          ExchangeRate).date == dd) = true := by
      simp only [Bool.and_eq_true, Bool.or_eq_true, beq_iff_eq]
      rintro ⟨hc | hc, _⟩
      exacts [hf hc, ht hc]
    simp [hnew]
  | some row =>
    have hkey := List.find?_some (findRow_eq s f t d ▸ h)
    simp only [Bool.and_eq_true, beq_iff_eq] at hkey
    by_cases hv : row.rate.valEq rate
    · simp [hv]
    · simp only [hv, Bool.not_false, if_pos]
      unfold rowsFor
      simp only
      refine filter_map_fix _ _ _
        (fun x => by by_cases hid : x.id == row.id <;> simp [hid])
        (fun x hx hpx => ?_)
      have hxrow : ¬ x.id = row.id := by
        intro hid
        have hrmem := List.mem_of_find?_eq_some (findRow_eq s f t d ▸ h)
        have hxr : x = row := List.inj_on_of_nodup_map hWF.1 hx hrmem hid
        subst hxr
        simp only [Bool.and_eq_true, Bool.or_eq_true, beq_iff_eq] at hpx
        rcases hpx.1 with hc | hc
        · exact hf (hkey.1.1 ▸ hc)
        · exact ht (hkey.1.2 ▸ hc)
      simp [hxrow]

/-- The `set_exchange_rate` keeps natural keys unique. -/
theorem KeyUnique_set (d : ℤ) (f t : String) (rate : Decimal) (s : Store)
    (now : ℤ) (hKU : KeyUnique s) :
    KeyUnique (set_exchange_rate d f t rate s now).1 := by
  unfold set_exchange_rate
  cases h : findRow s f t d with
  | none =>
    unfold KeyUnique
    simp only
    rw [List.pairwise_append]
    refine ⟨hKU, List.pairwise_singleton _ _, ?_⟩
    intro a ha b hb
    simp only [List.mem_singleton] at hb
    subst hb
    have hno := List.find?_eq_none.mp (findRow_eq s f t d ▸ h) a ha
    simp only [Bool.and_eq_true, beq_iff_eq, not_and] at hno
    intro hkeq
    have h1 : a.from_currency = f := congrArg (·.1) hkeq
    have h2 : a.to_currency = t := congrArg (·.2.1) hkeq
    have h3 : a.date = d := congrArg (·.2.2) hkeq
    exact hno ⟨h1, h2⟩ h3
  | some row =>
    by_cases hv : row.rate.valEq rate
    · simpa [hv] using hKU
    · simp only [hv, Bool.not_false, if_pos]
      unfold KeyUnique
      simp only
      rw [List.pairwise_map]
      refine hKU.imp_of_mem fun {a b} _ _ hab => ?_
      rwa [update_keeps_key row rate now a, update_keeps_key row rate now b]

/-- After `set_exchange_rate`, every row is the written row or an original
row with its key (and, off the written row's id, everything) unchanged. -/
theorem mem_set_preserved (d : ℤ) (f t : String) (rate : Decimal) (s : Store)
    (now : ℤ) (x : ExchangeRate)
    (hx : x ∈ (set_exchange_rate d f t rate s now).1.rows) :
    (∃ y ∈ s.rows, KeyAt x = KeyAt y) ∨
      (x.from_currency = f ∧ x.to_currency = t ∧ x.date = d) := by
  unfold set_exchange_rate at hx
  cases h : findRow s f t d with
  | none =>
    rw [h] at hx
    simp only [List.mem_append, List.mem_singleton] at hx
    rcases hx with hx | hx
    · exact .inl ⟨x, hx, rfl⟩
    · subst hx
      exact .inr ⟨rfl, rfl, rfl⟩
  | some row =>
    rw [h] at hx
    by_cases hv : row.rate.valEq rate
    · simp only [hv, Bool.not_true, if_neg, Bool.false_eq_true,
        not_false_eq_true] at hx
      exact .inl ⟨x, by simpa using hx, rfl⟩
    · simp only [hv, Bool.not_false, if_pos] at hx
      obtain ⟨y, hy, hyx⟩ := List.mem_map.mp hx
      subst hyx
      exact .inl ⟨y, hy, update_keeps_key row rate now y⟩

/-! ## Run-level lemmas -/

/-- A currency the reconciler can fully process: a fetched rate exists, it is
non-zero, and the reverse-rate division succeeds. -/
def goodRate (rates : List (String × Decimal)) (c : String) : Prop :=
  ∃ r, mapGet rates c = some r ∧ r.isZero = false ∧
    ∃ rv, Decimal.checkedDiv Decimal.one r = some rv

theorem runStore_nil (d : ℤ) (rates : List (String × Decimal)) (now : ℤ)
    (s : Store) : runStore d rates now [] s = s := rfl

theorem runStore_cons (d : ℤ) (rates : List (String × Decimal)) (now : ℤ)
    (c : String) (cs : List String) (s : Store) :
    runStore d rates now (c :: cs) s =
      runStore d rates now cs (stepCurrency d rates now s c) := rfl

/-- The two writes one processable currency performs. -/
theorem stepCurrency_good (d : ℤ) (rates : List (String × Decimal))
    (now : ℤ) (s : Store) (c : String) (r rv : Decimal)
    (hr : mapGet rates c = some r)
    (hrv : Decimal.checkedDiv Decimal.one r = some rv) :
    stepCurrency d rates now s c =
      (set_exchange_rate d rub c rv
        (set_exchange_rate d c rub r s now).1 now).1 := by
  rw [stepCurrency, hr]
  simp only [hrv]

/-- Unfolding one processable currency inside the reconciler. -/
theorem update_cons_good (d : ℤ) (rates : List (String × Decimal))
    (now : ℤ) (s : Store) (c : String) (cs : List String) (r rv : Decimal)
    (hr : mapGet rates c = some r) (hz : r.isZero = false)
    (hrv : Decimal.checkedDiv Decimal.one r = some rv) :
    update_stored_exchange_rates d rates (c :: cs) s now =
      update_stored_exchange_rates d rates cs
        (stepCurrency d rates now s c) now := by
  rw [update_stored_exchange_rates, hr, stepCurrency_good d rates now s c r rv hr hrv]
  simp only [hz, Bool.false_eq_true, if_false, hrv]

/-- When every listed currency is processable, the reconciler succeeds, emits
no diagnostics, and leaves exactly the `runStore` store. -/
theorem update_eq_runStore (d : ℤ) (rates : List (String × Decimal))
    (now : ℤ) : ∀ (cs : List String) (s : Store),
    (∀ c ∈ cs, goodRate rates c) →
    update_stored_exchange_rates d rates cs s now =
      (.ok (runStore d rates now cs s), []) := by
  intro cs
  induction cs with
  | nil => intro s _; rfl
  | cons c rest ih =>
    intro s hgood
    obtain ⟨r, hr, hz, rv, hrv⟩ := hgood c (by simp)
    rw [update_cons_good d rates now s c rest r rv hr hz hrv,
      ih _ fun c' hc' => hgood c' (by simp [hc']), runStore_cons]

/-- Processing a list that starts with fully processable currencies reaches
the tail with the prefix's writes committed. -/
theorem update_append (d : ℤ) (rates : List (String × Decimal)) (now : ℤ) :
    ∀ (pre cs' : List String) (s : Store),
    (∀ p ∈ pre, goodRate rates p) →
    update_stored_exchange_rates d rates (pre ++ cs') s now =
      update_stored_exchange_rates d rates cs' (runStore d rates now pre s)
        now := by
  intro pre
  induction pre with
  | nil => intro cs' s _; rfl
  | cons p rest ih =>
    intro cs' s hgood
    obtain ⟨r, hr, hz, rv, hrv⟩ := hgood p (by simp)
    rw [List.cons_append,
      update_cons_good d rates now s p (rest ++ cs') r rv hr hz hrv,
      ih _ _ fun c' hc' => hgood c' (by simp [hc']), runStore_cons]

/-- A successful reconciliation implies every listed currency was
processable. -/
theorem update_ok_good (d : ℤ) (rates : List (String × Decimal)) (now : ℤ) :
    ∀ (cs : List String) (s : Store) (s' : Store),
    (update_stored_exchange_rates d rates cs s now).1 = .ok s' →
    ∀ c ∈ cs, goodRate rates c := by
  intro cs
  induction cs with
  | nil => intro s s' _ c hc; exact absurd hc (by simp)
  | cons c rest ih =>
    intro s s' h c' hc'
    rw [update_stored_exchange_rates] at h
    cases hr : mapGet rates c with
    | none => rw [hr] at h; exact absurd h (by simp)
    | some r =>
      rw [hr] at h
      simp only at h
      by_cases hz : r.isZero = true
      · simp only [hz, if_true] at h
        exact absurd h (by simp)
      · simp only [hz, if_false] at h
        cases hrv : Decimal.checkedDiv Decimal.one r with
        | none => rw [hrv] at h; exact absurd h (by simp)
        | some rv =>
          rw [hrv] at h
          simp only [List.mem_cons] at hc'
          rcases hc' with hc' | hc'
          · subst hc'
            exact ⟨r, hr, Bool.eq_false_iff.mpr hz, rv, hrv⟩
          · exact ih _ _ h c' hc'

/-- A successful reconciliation leaves exactly the `runStore` store. -/
theorem update_ok_store (d : ℤ) (rates : List (String × Decimal)) (now : ℤ)
    (cs : List String) (s : Store) (s' : Store)
    (h : (update_stored_exchange_rates d rates cs s now).1 = .ok s') :
    s' = runStore d rates now cs s := by
  have hgood := update_ok_good d rates now cs s s' h
  rw [update_eq_runStore d rates now cs s hgood] at h
  simpa using h.symm

theorem stepCurrency_none (d : ℤ) (rates : List (String × Decimal))
    (now : ℤ) (s : Store) (c : String) (hr : mapGet rates c = none) :
    stepCurrency d rates now s c = s := by
  rw [stepCurrency, hr]

theorem stepCurrency_divNone (d : ℤ) (rates : List (String × Decimal))
    (now : ℤ) (s : Store) (c : String) (r : Decimal)
    (hr : mapGet rates c = some r)
    (hrv : Decimal.checkedDiv Decimal.one r = none) :
    stepCurrency d rates now s c = s := by
  rw [stepCurrency, hr]
  simp only [hrv]

theorem StoreWF_step (d : ℤ) (rates : List (String × Decimal)) (now : ℤ)
    (s : Store) (c : String) (hWF : StoreWF s) :
    StoreWF (stepCurrency d rates now s c) := by
  cases hr : mapGet rates c with
  | none => rw [stepCurrency_none d rates now s c hr]; exact hWF
  | some r =>
    cases hrv : Decimal.checkedDiv Decimal.one r with
    | none => rw [stepCurrency_divNone d rates now s c r hr hrv]; exact hWF
    | some rv =>
      rw [stepCurrency_good d rates now s c r rv hr hrv]
      exact StoreWF_set _ _ _ _ _ _ (StoreWF_set _ _ _ _ _ _ hWF)

theorem KeyUnique_step (d : ℤ) (rates : List (String × Decimal)) (now : ℤ)
    (s : Store) (c : String) (hKU : KeyUnique s) :
    KeyUnique (stepCurrency d rates now s c) := by
  cases hr : mapGet rates c with
  | none => rw [stepCurrency_none d rates now s c hr]; exact hKU
  | some r =>
    cases hrv : Decimal.checkedDiv Decimal.one r with
    | none => rw [stepCurrency_divNone d rates now s c r hr hrv]; exact hKU
    | some rv =>
      rw [stepCurrency_good d rates now s c r rv hr hrv]
      exact KeyUnique_set _ _ _ _ _ _ (KeyUnique_set _ _ _ _ _ _ hKU)

theorem findRow_step_other (d : ℤ) (rates : List (String × Decimal))
    (now : ℤ) (s : Store) (c : String) (f' t' : String) (d' : ℤ)
    (hWF : StoreWF s) (h1 : ¬(f' = c ∧ t' = rub ∧ d' = d))
    (h2 : ¬(f' = rub ∧ t' = c ∧ d' = d)) :
    findRow (stepCurrency d rates now s c) f' t' d' = findRow s f' t' d' := by
  cases hr : mapGet rates c with
  | none => rw [stepCurrency_none d rates now s c hr]
  | some r =>
    cases hrv : Decimal.checkedDiv Decimal.one r with
    | none => rw [stepCurrency_divNone d rates now s c r hr hrv]
    | some rv =>
      rw [stepCurrency_good d rates now s c r rv hr hrv,
        findRow_set_other _ _ _ _ _ _ _ _ _ (StoreWF_set _ _ _ _ _ _ hWF) h2,
        findRow_set_other _ _ _ _ _ _ _ _ _ hWF h1]

theorem rowsFor_step_other (d : ℤ) (rates : List (String × Decimal))
    (now : ℤ) (s : Store) (c : String) (cc : String) (dd : ℤ)
    (hWF : StoreWF s) (hc : c ≠ cc) (hrub : cc ≠ rub) :
    rowsFor (stepCurrency d rates now s c) cc dd = rowsFor s cc dd := by
  cases hr : mapGet rates c with
  | none => rw [stepCurrency_none d rates now s c hr]
  | some r =>
    cases hrv : Decimal.checkedDiv Decimal.one r with
    | none => rw [stepCurrency_divNone d rates now s c r hr hrv]
    | some rv =>
      rw [stepCurrency_good d rates now s c r rv hr hrv,
        rowsFor_set_other _ rub c rv _ _ _ _ (StoreWF_set _ _ _ _ _ _ hWF)
          (fun h => hrub h.symm) hc,
        rowsFor_set_other _ c rub r _ _ _ _ hWF hc
          (fun h => hrub h.symm)]

theorem StoreWF_runStore (d : ℤ) (rates : List (String × Decimal))
    (now : ℤ) : ∀ (cs : List String) (s : Store), StoreWF s →
    StoreWF (runStore d rates now cs s) := by
  intro cs
  induction cs with
  | nil => exact fun s h => h
  | cons c rest ih =>
    intro s hWF
    rw [runStore_cons]
    exact ih _ (StoreWF_step d rates now s c hWF)

theorem KeyUnique_runStore (d : ℤ) (rates : List (String × Decimal))
    (now : ℤ) : ∀ (cs : List String) (s : Store), StoreWF s → KeyUnique s →
    KeyUnique (runStore d rates now cs s) := by
  intro cs
  induction cs with
  | nil => exact fun s _ h => h
  | cons c rest ih =>
    intro s hWF hKU
    rw [runStore_cons]
    exact ih _ (StoreWF_step d rates now s c hWF)
      (KeyUnique_step d rates now s c hKU)

theorem findRow_runStore_other (d : ℤ) (rates : List (String × Decimal))
    (now : ℤ) : ∀ (cs : List String) (s : Store) (f' t' : String) (d' : ℤ),
    StoreWF s →
    (∀ c' ∈ cs, ¬(f' = c' ∧ t' = rub ∧ d' = d) ∧
      ¬(f' = rub ∧ t' = c' ∧ d' = d)) →
    findRow (runStore d rates now cs s) f' t' d' = findRow s f' t' d' := by
  intro cs
  induction cs with
  | nil => intro s f' t' d' _ _; rfl
  | cons c rest ih =>
    intro s f' t' d' hWF hk
    rw [runStore_cons,
      ih _ f' t' d' (StoreWF_step d rates now s c hWF)
        (fun c' hc' => hk c' (by simp [hc'])),
      findRow_step_other d rates now s c f' t' d' hWF
        (hk c (by simp)).1 (hk c (by simp)).2]

theorem rowsFor_runStore_other (d : ℤ) (rates : List (String × Decimal))
    (now : ℤ) : ∀ (cs : List String) (s : Store) (cc : String) (dd : ℤ),
    StoreWF s → cc ∉ cs → cc ≠ rub →
    rowsFor (runStore d rates now cs s) cc dd = rowsFor s cc dd := by
  intro cs
  induction cs with
  | nil => intro s cc dd _ _ _; rfl
  | cons c rest ih =>
    intro s cc dd hWF hmem hrub
    rw [runStore_cons,
      ih _ cc dd (StoreWF_step d rates now s c hWF)
        (fun h => hmem (by simp [h])) hrub,
      rowsFor_step_other d rates now s c cc dd hWF
        (fun h => hmem (by simp [h])) hrub]

/-- One processed currency leaves both of its rows, holding the direct and
reverse values. -/
theorem findRow_step_self (d : ℤ) (rates : List (String × Decimal))
    (now : ℤ) (s : Store) (c : String) (r rv : Decimal)
    (hr : mapGet rates c = some r)
    (hrv : Decimal.checkedDiv Decimal.one r = some rv) (hcr : c ≠ rub)
    (hWF : StoreWF s) :
    (∃ row1, findRow (stepCurrency d rates now s c) c rub d = some row1 ∧
      row1.rate.valEq r = true) ∧
    (∃ row2, findRow (stepCurrency d rates now s c) rub c d = some row2 ∧
      row2.rate.valEq rv = true) := by
  rw [stepCurrency_good d rates now s c r rv hr hrv]
  constructor
  · obtain ⟨row1, hrow1, hval1, _, _, _⟩ :=
      findRow_set_self d c rub r s now
    refine ⟨row1, ?_, hval1⟩
    rw [findRow_set_other d rub c rv _ now c rub d
      (StoreWF_set d c rub r s now hWF)
      (fun hcc => hcr hcc.2.1.symm)]
    exact hrow1
  · obtain ⟨row2, hrow2, hval2, _, _, _⟩ :=
      findRow_set_self d rub c rv (set_exchange_rate d c rub r s now).1 now
    exact ⟨row2, hrow2, hval2⟩

/-- After a successful run, every processed currency's two rows are present
with the fetched and reverse values. -/
theorem findRow_runStore_self (d : ℤ) (rates : List (String × Decimal))
    (now : ℤ) : ∀ (cs : List String) (s : Store) (c : String) (r rv : Decimal),
    StoreWF s → cs.Nodup → rub ∉ cs → c ∈ cs →
    mapGet rates c = some r →
    Decimal.checkedDiv Decimal.one r = some rv →
    (∃ row1, findRow (runStore d rates now cs s) c rub d = some row1 ∧
      row1.rate.valEq r = true) ∧
    (∃ row2, findRow (runStore d rates now cs s) rub c d = some row2 ∧
      row2.rate.valEq rv = true) := by
  intro cs
  induction cs with
  | nil => intro s c r rv _ _ _ hc; exact absurd hc (by simp)
  | cons hd rest ih =>
    intro s c r rv hWF hnd hrub hc hr hrv
    have hrubne : rub ∉ rest := fun h => hrub (by simp [h])
    rcases List.mem_cons.mp hc with hc | hc
    · subst hc
      have hcr : c ≠ rub := fun h => hrub (by simp [h])
      have hstep := findRow_step_self d rates now s c r rv hr hrv hcr hWF
      obtain ⟨⟨row1, hrow1, hval1⟩, ⟨row2, hrow2, hval2⟩⟩ := hstep
      have hcrest : c ∉ rest := (List.nodup_cons.mp hnd).1
      rw [runStore_cons]
      constructor
      · refine ⟨row1, ?_, hval1⟩
        rw [findRow_runStore_other d rates now rest _ c rub d
          (StoreWF_step d rates now s c hWF)
          (fun c' hc' => ⟨fun hcc => hcrest (hcc.1 ▸ hc'),
            fun hcc => hcr hcc.1⟩)]
        exact hrow1
      · refine ⟨row2, ?_, hval2⟩
        rw [findRow_runStore_other d rates now rest _ rub c d
          (StoreWF_step d rates now s c hWF)
          (fun c' hc' => ⟨fun hcc => hrubne (hcc.1 ▸ hc'),
            fun hcc => hcrest (hcc.2.1 ▸ hc')⟩)]
        exact hrow2
    · rw [runStore_cons]
      exact ih _ c r rv (StoreWF_step d rates now s hd hWF)
        (List.nodup_cons.mp hnd).2 hrubne hc hr hrv

/-- An upsert of an equal value is a no-op. -/
theorem set_exchange_rate_noop (d : ℤ) (f t : String) (rate : Decimal)
    (s : Store) (now : ℤ) (row : ExchangeRate)
    (hrow : findRow s f t d = some row) (hval : row.rate.valEq rate = true) :
    set_exchange_rate d f t rate s now = (s, false) := by
  unfold set_exchange_rate
  rw [hrow]
  simp [hval]

/-! ## Claim C1: direction of the two written rows -/

/-- C1 counterexample: reconciling the fetched rate 90.5 for USD writes the
fetched value into the (USD→RUB) row and the reverse value into the
(RUB→USD) row — not the other way around, as the claim states: the
(base→C) row does not hold the fetched rate and the (C→base) row does not
hold the reverse rate. -/
theorem reconcile_direction_counterexample :
    ((update_stored_exchange_rates 20098 [(("USD"), ⟨905, 1⟩)]
        (("USD") :: []) ⟨[], 0⟩ 0).1 =
      Outcome.ok ((update_stored_exchange_rates 20098 [(("USD"), ⟨905, 1⟩)]
        (("USD") :: []) ⟨[], 0⟩ 0).1.store)) ∧
    ((findRow ((update_stored_exchange_rates 20098 [(("USD"), ⟨905, 1⟩)]
        (("USD") :: []) ⟨[], 0⟩ 0).1.store) rub ("USD") 20098).map (·.rate) =
      some ⟨110497237569060773480662983, 28⟩) ∧
    Decimal.valEq ⟨110497237569060773480662983, 28⟩ ⟨905, 1⟩ = false ∧
    ((findRow ((update_stored_exchange_rates 20098 [(("USD"), ⟨905, 1⟩)]
        (("USD") :: []) ⟨[], 0⟩ 0).1.store) ("USD") rub 20098).map (·.rate) =
      some ⟨905, 1⟩) ∧
    Decimal.valEq ⟨905, 1⟩ ⟨110497237569060773480662983, 28⟩ = false := by
  refine ⟨by decide, by decide, by decide, by decide, by decide⟩

/-- C1 (amended): for every tracked currency `C` with a non-zero fetched
rate `r`, a successful reconciliation upserts the row (`C`→base, date) with
`r` and the row (base→`C`, date) with the reverse rate obtained by dividing
1 by `r` in decimal arithmetic; on the spec's scenario (USD 90,5 and EUR
100,25 fetched into an empty store) exactly four rows result, with the
direct values 90.5 and 100.25 and their decimal reciprocals. -/
theorem reconcile_writes_direct_and_reverse
    (d : ℤ) (rates : List (String × Decimal)) (cs : List String)
    (c : String) (r : Decimal) (s s' : Store) (now : ℤ)
    (hWF : StoreWF s) (hnd : cs.Nodup) (hrub : rub ∉ cs) (hc : c ∈ cs)
    (hr : mapGet rates c = some r)
    (h : (update_stored_exchange_rates d rates cs s now).1 = .ok s') :
    r.isZero = false ∧
    ∃ rv, Decimal.checkedDiv Decimal.one r = some rv ∧
      (∃ row1, findRow s' c rub d = some row1 ∧
        row1.rate.valEq r = true) ∧
      (∃ row2, findRow s' rub c d = some row2 ∧
        row2.rate.valEq rv = true) := by
  obtain ⟨r', hr', hz', rv, hrv⟩ := update_ok_good d rates now cs s s' h c hc
  have hrr : r' = r := by rw [hr] at hr'; exact (Option.some.injEq _ _ ▸ hr').symm
  subst hrr
  have hs' := update_ok_store d rates now cs s s' h
  subst hs'
  exact ⟨hz', rv, hrv,
    findRow_runStore_self d rates now cs s c r' rv hWF hnd hrub hc hr hrv⟩

/-- Witness for C1: the spec's scenario — feed strings "90,5" for USD and
"100,25" for EUR on 2025-01-10 (day 20098), empty store.  Four rows result:
(USD→RUB, 90.5), (RUB→USD, 0.0110497…), (EUR→RUB, 100.25),
(RUB→EUR, 0.0099750…). -/
theorem reconcile_writes_direct_and_reverse_witness :
    (get_curs_map ⟨[⟨("USD"), ("90,5")⟩, ⟨("EUR"), ("100,25")⟩]⟩ =
      [(("USD"), ⟨905, 1⟩), (("EUR"), ⟨10025, 2⟩)]) ∧
    ((update_stored_exchange_rates 20098
        [(("USD"), ⟨905, 1⟩), (("EUR"), ⟨10025, 2⟩)]
        get_currencies ⟨[], 0⟩ 0).1 =
      Outcome.ok ((update_stored_exchange_rates 20098
        [(("USD"), ⟨905, 1⟩), (("EUR"), ⟨10025, 2⟩)]
        get_currencies ⟨[], 0⟩ 0).1.store)) ∧
    ((update_stored_exchange_rates 20098
        [(("USD"), ⟨905, 1⟩), (("EUR"), ⟨10025, 2⟩)]
        get_currencies ⟨[], 0⟩ 0).1.store.rows.length = 4) ∧
    (∃ row1, findRow ((update_stored_exchange_rates 20098
        [(("USD"), ⟨905, 1⟩), (("EUR"), ⟨10025, 2⟩)]
        get_currencies ⟨[], 0⟩ 0).1.store) ("USD") rub 20098 = some row1 ∧
      row1.rate.valEq ⟨905, 1⟩ = true) ∧
    (∃ row2, findRow ((update_stored_exchange_rates 20098
        [(("USD"), ⟨905, 1⟩), (("EUR"), ⟨10025, 2⟩)]
        get_currencies ⟨[], 0⟩ 0).1.store) rub ("USD") 20098 = some row2 ∧
      row2.rate.valEq ⟨110497237569060773480662983, 28⟩ = true) ∧
    (∃ row3, findRow ((update_stored_exchange_rates 20098
        [(("USD"), ⟨905, 1⟩), (("EUR"), ⟨10025, 2⟩)]
        get_currencies ⟨[], 0⟩ 0).1.store) ("EUR") rub 20098 = some row3 ∧
      row3.rate.valEq ⟨10025, 2⟩ = true) ∧
    (∃ row4, findRow ((update_stored_exchange_rates 20098
        [(("USD"), ⟨905, 1⟩), (("EUR"), ⟨10025, 2⟩)]
        get_currencies ⟨[], 0⟩ 0).1.store) rub ("EUR") 20098 = some row4 ∧
      row4.rate.valEq ⟨99750623441396508728179551, 28⟩ = true) ∧
    Decimal.toRat ⟨905, 1⟩ = 181 / 2 ∧
    Decimal.toRat ⟨10025, 2⟩ = 401 / 4 := by
  have hWF0 : StoreWF ⟨[], 0⟩ := ⟨by simp, by simp⟩
  have hok : (update_stored_exchange_rates 20098
      [(("USD"), ⟨905, 1⟩), (("EUR"), ⟨10025, 2⟩)]
      get_currencies ⟨[], 0⟩ 0).1 =
      Outcome.ok ((update_stored_exchange_rates 20098
        [(("USD"), ⟨905, 1⟩), (("EUR"), ⟨10025, 2⟩)]
        get_currencies ⟨[], 0⟩ 0).1.store) := by decide
  refine ⟨by decide, hok, by decide, ?_, ?_, ?_, ?_, ?_, ?_⟩
  · obtain ⟨_, rv, _, ⟨row1, hrow1, hval1⟩, _⟩ :=
      reconcile_writes_direct_and_reverse 20098
        [(("USD"), ⟨905, 1⟩), (("EUR"), ⟨10025, 2⟩)] get_currencies
        ("USD") ⟨905, 1⟩ ⟨[], 0⟩ _ 0 hWF0 (by decide) (by decide)
        (by decide) (by decide) hok
    exact ⟨row1, hrow1, hval1⟩
  · obtain ⟨_, rv, hrv, _, ⟨row2, hrow2, hval2⟩⟩ :=
      reconcile_writes_direct_and_reverse 20098
        [(("USD"), ⟨905, 1⟩), (("EUR"), ⟨10025, 2⟩)] get_currencies
        ("USD") ⟨905, 1⟩ ⟨[], 0⟩ _ 0 hWF0 (by decide) (by decide)
        (by decide) (by decide) hok
    have hrvv : rv = ⟨110497237569060773480662983, 28⟩ := by
      have hdiv : Decimal.checkedDiv Decimal.one ⟨905, 1⟩ =
          some ⟨110497237569060773480662983, 28⟩ := by decide
      rw [hdiv] at hrv
      exact (Option.some.injEq _ _ ▸ hrv).symm
    exact hrvv ▸ ⟨row2, hrow2, hval2⟩
  · obtain ⟨_, rv, _, ⟨row3, hrow3, hval3⟩, _⟩ :=
      reconcile_writes_direct_and_reverse 20098
        [(("USD"), ⟨905, 1⟩), (("EUR"), ⟨10025, 2⟩)] get_currencies
        ("EUR") ⟨10025, 2⟩ ⟨[], 0⟩ _ 0 hWF0 (by decide) (by decide)
        (by decide) (by decide) hok
    exact ⟨row3, hrow3, hval3⟩
  · obtain ⟨_, rv, hrv, _, ⟨row4, hrow4, hval4⟩⟩ :=
      reconcile_writes_direct_and_reverse 20098
        [(("USD"), ⟨905, 1⟩), (("EUR"), ⟨10025, 2⟩)] get_currencies
        ("EUR") ⟨10025, 2⟩ ⟨[], 0⟩ _ 0 hWF0 (by decide) (by decide)
        (by decide) (by decide) hok
    have hrvv : rv = ⟨99750623441396508728179551, 28⟩ := by
      have hdiv : Decimal.checkedDiv Decimal.one ⟨10025, 2⟩ =
          some ⟨99750623441396508728179551, 28⟩ := by decide
      rw [hdiv] at hrv
      exact (Option.some.injEq _ _ ▸ hrv).symm
    exact hrvv ▸ ⟨row4, hrow4, hval4⟩
  · norm_num [Decimal.toRat]
  · norm_num [Decimal.toRat]

/-! ## Claim C5: upsert semantics and idempotence -/

/-- Re-reconciling the same date and rate map against the store a successful
reconciliation produced is a no-op: success again, no diagnostics, store
unchanged (in particular no `updated_at` changes, whatever clock value the
second run samples). -/
theorem update_idempotent (d : ℤ) (rates : List (String × Decimal))
    (now now' : ℤ) : ∀ (cs : List String) (s s1 : Store),
    StoreWF s → cs.Nodup → rub ∉ cs →
    (update_stored_exchange_rates d rates cs s now).1 = .ok s1 →
    update_stored_exchange_rates d rates cs s1 now' = (.ok s1, []) := by
  intro cs
  induction cs with
  | nil =>
    intro s s1 _ _ _ h
    simp only [update_stored_exchange_rates] at h ⊢
  | cons c rest ih =>
    intro s s1 hWF hnd hrub h
    obtain ⟨r, hr, hz, rv, hrv⟩ :=
      update_ok_good d rates now (c :: rest) s s1 h c (by simp)
    rw [update_cons_good d rates now s c rest r rv hr hz hrv] at h
    have hWFstep := StoreWF_step d rates now s c hWF
    have hcrest : c ∉ rest := (List.nodup_cons.mp hnd).1
    have hrubrest : rub ∉ rest := fun hh => hrub (by simp [hh])
    have hcr : c ≠ rub := fun hh => hrub (by simp [hh])
    have hs1 : s1 = runStore d rates now (c :: rest) s := by
      rw [runStore_cons]
      exact update_ok_store d rates now rest _ s1 h
    obtain ⟨⟨row1, hrow1, hval1⟩, ⟨row2, hrow2, hval2⟩⟩ :=
      findRow_runStore_self d rates now (c :: rest) s c r rv hWF hnd hrub
        (by simp) hr hrv
    rw [← hs1] at hrow1 hrow2
    have hstep1 : stepCurrency d rates now' s1 c = s1 := by
      rw [stepCurrency_good d rates now' s1 c r rv hr hrv,
        set_exchange_rate_noop d c rub r s1 now' row1 hrow1 hval1,
        set_exchange_rate_noop d rub c rv s1 now' row2 hrow2 hval2]
    rw [update_cons_good d rates now' s1 c rest r rv hr hz hrv, hstep1]
    exact ih (stepCurrency d rates now s c) s1 hWFstep
      (List.nodup_cons.mp hnd).2 hrubrest h

/-- C5: the upsert looks up the row by natural key; found with a different
rate ⇒ only that row's `rate` and `updated_at` change (a write); found equal
⇒ no write; absent ⇒ a fresh row with `created_at = updated_at = now` is
inserted.  Consequently reconciling the same date and rate map a second time
performs no writes at all (same store back, success, regardless of the new
clock value — so no `updated_at` changes). -/
theorem upsert_semantics_and_idempotence :
    (∀ (d : ℤ) (f t : String) (rate : Decimal) (s : Store) (now : ℤ)
      (row : ExchangeRate), findRow s f t d = some row →
      row.rate.valEq rate = false →
      (set_exchange_rate d f t rate s now).2 = true ∧
      findRow (set_exchange_rate d f t rate s now).1 f t d =
        some { row with rate := rate, updated_at := now } ∧
      ∀ x ∈ s.rows, x.id ≠ row.id →
        x ∈ (set_exchange_rate d f t rate s now).1.rows) ∧
    (∀ (d : ℤ) (f t : String) (rate : Decimal) (s : Store) (now : ℤ)
      (row : ExchangeRate), findRow s f t d = some row →
      row.rate.valEq rate = true →
      set_exchange_rate d f t rate s now = (s, false)) ∧
    (∀ (d : ℤ) (f t : String) (rate : Decimal) (s : Store) (now : ℤ),
      findRow s f t d = none →
      (set_exchange_rate d f t rate s now).2 = true ∧
      findRow (set_exchange_rate d f t rate s now).1 f t d =
        some ⟨s.nextId, f, t, rate, d, now, now⟩ ∧
      ∀ x ∈ s.rows, x ∈ (set_exchange_rate d f t rate s now).1.rows) ∧
    (∀ (d : ℤ) (rates : List (String × Decimal)) (now now' : ℤ)
      (cs : List String) (s s1 : Store), StoreWF s → cs.Nodup → rub ∉ cs →
      (update_stored_exchange_rates d rates cs s now).1 = .ok s1 →
      update_stored_exchange_rates d rates cs s1 now' = (.ok s1, [])) := by
  refine ⟨?_, ?_, ?_,
    fun d rates now now' cs s s1 => update_idempotent d rates now now' cs s s1⟩
  · intro d f t rate s now row hrow hval
    unfold set_exchange_rate
    rw [hrow]
    simp only [hval, Bool.not_false, if_pos]
    refine ⟨by trivial, ?_, ?_⟩
    · rw [findRow_eq]
      simp only
      rw [find?_map_of_pred _ _ _
        (fun x => by by_cases hid : x.id == row.id <;> simp [hid])]
      rw [findRow_eq] at hrow
      simp [hrow]
    · intro x hx hid
      exact List.mem_map.mpr ⟨x, hx, by simp [hid]⟩
  · intro d f t rate s now row hrow hval
    exact set_exchange_rate_noop d f t rate s now row hrow hval
  · intro d f t rate s now hnone
    unfold set_exchange_rate
    rw [hnone]
    refine ⟨by trivial, ?_, ?_⟩
    · rw [findRow_eq] at hnone ⊢
      simp [List.find?_append, hnone]
    · intro x hx
      exact List.mem_append_left _ hx

/-- Witness for C5: a one-row store updated with a different value, the same
value, a missing key, and the double-reconcile of the C1 scenario. -/
theorem upsert_semantics_and_idempotence_witness :
    ((set_exchange_rate 7 ("USD") rub ⟨10, 0⟩
        ⟨[⟨0, ("USD"), rub, ⟨9, 0⟩, 7, 3, 3⟩], 1⟩ 99).2 = true ∧
      findRow (set_exchange_rate 7 ("USD") rub ⟨10, 0⟩
        ⟨[⟨0, ("USD"), rub, ⟨9, 0⟩, 7, 3, 3⟩], 1⟩ 99).1 ("USD") rub 7 =
        some ⟨0, ("USD"), rub, ⟨10, 0⟩, 7, 3, 99⟩) ∧
    (set_exchange_rate 7 ("USD") rub ⟨90, 1⟩
        ⟨[⟨0, ("USD"), rub, ⟨9, 0⟩, 7, 3, 3⟩], 1⟩ 99 =
      (⟨[⟨0, ("USD"), rub, ⟨9, 0⟩, 7, 3, 3⟩], 1⟩, false)) ∧
    ((set_exchange_rate 8 ("EUR") rub ⟨10, 0⟩
        ⟨[⟨0, ("USD"), rub, ⟨9, 0⟩, 7, 3, 3⟩], 1⟩ 99).2 = true ∧
      findRow (set_exchange_rate 8 ("EUR") rub ⟨10, 0⟩
        ⟨[⟨0, ("USD"), rub, ⟨9, 0⟩, 7, 3, 3⟩], 1⟩ 99).1 ("EUR") rub 8 =
        some ⟨1, ("EUR"), rub, ⟨10, 0⟩, 8, 99, 99⟩) ∧
    (update_stored_exchange_rates 20098 [(("USD"), ⟨905, 1⟩)] (("USD") :: [])
      ((update_stored_exchange_rates 20098 [(("USD"), ⟨905, 1⟩)]
        (("USD") :: []) ⟨[], 0⟩ 0).1.store) 555 =
      (.ok ((update_stored_exchange_rates 20098 [(("USD"), ⟨905, 1⟩)]
        (("USD") :: []) ⟨[], 0⟩ 0).1.store), [])) := by
  obtain ⟨hupd, hnoop, hins, hidem⟩ := upsert_semantics_and_idempotence
  refine ⟨?_, ?_, ?_, ?_⟩
  · obtain ⟨hw, hf, _⟩ := hupd 7 ("USD") rub ⟨10, 0⟩
      ⟨[⟨0, ("USD"), rub, ⟨9, 0⟩, 7, 3, 3⟩], 1⟩ 99
      ⟨0, ("USD"), rub, ⟨9, 0⟩, 7, 3, 3⟩ (by decide) (by decide)
    exact ⟨hw, hf⟩
  · exact hnoop 7 ("USD") rub ⟨90, 1⟩
      ⟨[⟨0, ("USD"), rub, ⟨9, 0⟩, 7, 3, 3⟩], 1⟩ 99
      ⟨0, ("USD"), rub, ⟨9, 0⟩, 7, 3, 3⟩ (by decide) (by decide)
  · obtain ⟨hw, hf, _⟩ := hins 8 ("EUR") rub ⟨10, 0⟩
      ⟨[⟨0, ("USD"), rub, ⟨9, 0⟩, 7, 3, 3⟩], 1⟩ 99 (by decide)
    exact ⟨hw, hf⟩
  · exact hidem 20098 [(("USD"), ⟨905, 1⟩)] 0 555 (("USD") :: []) ⟨[], 0⟩
      ((update_stored_exchange_rates 20098 [(("USD"), ⟨905, 1⟩)]
        (("USD") :: []) ⟨[], 0⟩ 0).1.store)
      ⟨by simp, by simp⟩ (by decide) (by decide) (by decide)

/-! ## Claim C6: a missing tracked currency aborts without rollback -/

/-- C6: when the tracked list reaches a currency absent from the fetched
map, reconciliation stops right there with the missing-rate error: nothing
is written for that currency (its rows, on any date, are exactly as before —
likewise for every other unprocessed currency), while the currencies
processed earlier keep their two freshly committed rows (no rollback). -/
theorem missing_rate_aborts (d : ℤ) (rates : List (String × Decimal))
    (now : ℤ) (pre : List String) (cm : String) (rest : List String)
    (s : Store) (hWF : StoreWF s) (hnd : pre.Nodup) (hrub : rub ∉ pre)
    (hcm : cm ∉ pre) (hcmr : cm ≠ rub)
    (hgood : ∀ p ∈ pre, goodRate rates p)
    (hmiss : mapGet rates cm = none) :
    update_stored_exchange_rates d rates (pre ++ cm :: rest) s now =
      (.err (.missingRate cm d) (runStore d rates now pre s), []) ∧
    (∀ dd, rowsFor (runStore d rates now pre s) cm dd = rowsFor s cm dd) ∧
    (∀ cc dd, cc ≠ rub → cc ∉ pre →
      rowsFor (runStore d rates now pre s) cc dd = rowsFor s cc dd) ∧
    (∀ p ∈ pre, ∃ rp rv, mapGet rates p = some rp ∧
      Decimal.checkedDiv Decimal.one rp = some rv ∧
      (∃ row1, findRow (runStore d rates now pre s) p rub d = some row1 ∧
        row1.rate.valEq rp = true) ∧
      (∃ row2, findRow (runStore d rates now pre s) rub p d = some row2 ∧
        row2.rate.valEq rv = true)) := by
  have hother : ∀ cc dd, cc ≠ rub → cc ∉ pre →
      rowsFor (runStore d rates now pre s) cc dd = rowsFor s cc dd :=
    fun cc dd hccr hccp =>
      rowsFor_runStore_other d rates now pre s cc dd hWF hccp hccr
  refine ⟨?_, fun dd => hother cm dd hcmr hcm, hother, ?_⟩
  · rw [update_append d rates now pre (cm :: rest) s hgood,
      update_stored_exchange_rates, hmiss]
  · intro p hp
    obtain ⟨rp, hrp, _, rv, hrv⟩ := hgood p hp
    exact ⟨rp, rv, hrp, hrv,
      findRow_runStore_self d rates now pre s p rp rv hWF hnd hrub hp hrp
        hrv⟩

/-- Witness for C6: tracked `[USD, EUR]`, fetched map with only USD, empty
store: the pass errors for EUR, EUR gets no row, USD keeps its two rows. -/
theorem missing_rate_aborts_witness :
    (update_stored_exchange_rates 20098 [(("USD"), ⟨905, 1⟩)]
        ((("USD") :: []) ++ ("EUR") :: []) ⟨[], 0⟩ 0 =
      (.err (.missingRate ("EUR") 20098)
        (runStore 20098 [(("USD"), ⟨905, 1⟩)] 0 (("USD") :: []) ⟨[], 0⟩),
        [])) ∧
    (rowsFor (runStore 20098 [(("USD"), ⟨905, 1⟩)] 0 (("USD") :: []) ⟨[], 0⟩)
      ("EUR") 20098 = rowsFor ⟨[], 0⟩ ("EUR") 20098) ∧
    (∃ row1, findRow (runStore 20098 [(("USD"), ⟨905, 1⟩)] 0
        (("USD") :: []) ⟨[], 0⟩) ("USD") rub 20098 = some row1 ∧
      row1.rate.valEq ⟨905, 1⟩ = true) := by
  obtain ⟨h1, h2, _, h4⟩ := missing_rate_aborts 20098 [(("USD"), ⟨905, 1⟩)] 0
    (("USD") :: []) ("EUR") [] ⟨[], 0⟩ ⟨by simp, by simp⟩ (by decide)
    (by decide) (by decide) (by decide)
    (fun p hp => by
      rw [List.mem_singleton] at hp
      subst hp
      exact ⟨⟨905, 1⟩, by decide, by decide,
        ⟨110497237569060773480662983, 28⟩, by decide⟩)
    (by decide)
  obtain ⟨rp, rv, hrp, hrv, ⟨row1, hrow1, hval1⟩, _⟩ :=
    h4 ("USD") (by simp)
  have hrpv : rp = ⟨905, 1⟩ := by
    rw [show mapGet [(("USD"), ⟨905, 1⟩)] ("USD") = some ⟨905, 1⟩
      from by decide] at hrp
    exact (Option.some.injEq _ _ ▸ hrp).symm
  subst hrpv
  exact ⟨h1, h2 20098, row1, hrow1, hval1⟩

/-! ## Claim C7: the reciprocal pair invariant -/

/-- Canonical shape of the rows involving currency `c` on date `d`: only the
two keys this system ever writes for the pair. -/
def CanInv (c : String) (d : ℤ) (s : Store) : Prop :=
  ∀ r ∈ s.rows, (r.from_currency = c ∨ r.to_currency = c) → r.date = d →
    (r.from_currency = c ∧ r.to_currency = rub) ∨
    (r.from_currency = rub ∧ r.to_currency = c)

theorem CanInv_set (d' : ℤ) (f t : String) (rate : Decimal) (s : Store)
    (now : ℤ) (c : String) (d : ℤ) (hInv : CanInv c d s)
    (hkey : (f = c ∨ t = c) → d' = d →
      (f = c ∧ t = rub) ∨ (f = rub ∧ t = c)) :
    CanInv c d (set_exchange_rate d' f t rate s now).1 := by
  intro r' hr' hcy hdy
  rcases mem_set_preserved d' f t rate s now r' hr' with ⟨y, hy, hky⟩ | hw
  · have h1 : r'.from_currency = y.from_currency := congrArg (·.1) hky
    have h2 : r'.to_currency = y.to_currency := congrArg (·.2.1) hky
    have h3 : r'.date = y.date := congrArg (·.2.2) hky
    rw [h1, h2]
    exact hInv y hy (by rw [← h1, ← h2]; exact hcy) (h3 ▸ hdy)
  · obtain ⟨hf, ht, hd⟩ := hw
    rw [hf, ht]
    exact hkey (by rw [← hf, ← ht]; exact hcy) (by rw [← hd]; exact hdy)

theorem CanInv_step (d : ℤ) (rates : List (String × Decimal)) (now : ℤ)
    (s : Store) (c' : String) (c : String) (hInv : CanInv c d s)
    (hcr : c ≠ rub) : CanInv c d (stepCurrency d rates now s c') := by
  cases hr : mapGet rates c' with
  | none => rw [stepCurrency_none d rates now s c' hr]; exact hInv
  | some r =>
    cases hrv : Decimal.checkedDiv Decimal.one r with
    | none => rw [stepCurrency_divNone d rates now s c' r hr hrv]; exact hInv
    | some rv =>
      rw [stepCurrency_good d rates now s c' r rv hr hrv]
      refine CanInv_set d rub c' rv _ now c d
        (CanInv_set d c' rub r s now c d hInv ?_) ?_
      · rintro (hc | hc) _
        · exact .inl ⟨hc, rfl⟩
        · exact absurd hc.symm hcr
      · rintro (hc | hc) _
        · exact absurd hc.symm hcr
        · exact .inr ⟨rfl, hc⟩

theorem CanInv_runStore (d : ℤ) (rates : List (String × Decimal))
    (now : ℤ) : ∀ (cs : List String) (s : Store) (c : String),
    CanInv c d s → c ≠ rub → CanInv c d (runStore d rates now cs s) := by
  intro cs
  induction cs with
  | nil => exact fun s c h _ => h
  | cons c' rest ih =>
    intro s c hInv hcr
    rw [runStore_cons]
    exact ih _ c (CanInv_step d rates now s c' c hInv hcr) hcr

/-- A list of rows with pairwise distinct keys, every key among two fixed
distinct values and both values realized, has exactly two elements. -/
theorem length_eq_two_of_keys (l : List ExchangeRate)
    (k1 k2 : String × String × ℤ)
    (hk : ∀ x ∈ l, KeyAt x = k1 ∨ KeyAt x = k2)
    (hp : l.Pairwise fun a b => KeyAt a ≠ KeyAt b)
    (a b : ExchangeRate) (ha : a ∈ l) (hb : b ∈ l)
    (hka : KeyAt a = k1) (hkb : KeyAt b = k2) (hne : k1 ≠ k2) :
    l.length = 2 := by
  match l with
  | [] => cases ha
  | [x] =>
    have hax : a = x := by simpa using ha
    have hbx : b = x := by simpa using hb
    subst hax
    subst hbx
    exact absurd (hka.symm.trans hkb) hne
  | [x, y] => rfl
  | x :: y :: z :: rest =>
    exfalso
    obtain ⟨hx, hp'⟩ := List.pairwise_cons.mp hp
    obtain ⟨hy, _⟩ := List.pairwise_cons.mp hp'
    have hxy : KeyAt x ≠ KeyAt y := hx y (by simp)
    have hxz : KeyAt x ≠ KeyAt z := hx z (by simp)
    have hyz : KeyAt y ≠ KeyAt z := hy z (by simp)
    have h1 := hk x (by simp)
    have h2 := hk y (by simp)
    have h3 := hk z (by simp)
    rcases h1 with h1 | h1 <;> rcases h2 with h2 | h2 <;>
      rcases h3 with h3 | h3
    · exact hxy (h1.trans h2.symm)
    · exact hxy (h1.trans h2.symm)
    · exact hxz (h1.trans h3.symm)
    · exact hyz (h2.trans h3.symm)
    · exact hyz (h2.trans h3.symm)
    · exact hxz (h1.trans h3.symm)
    · exact hxy (h1.trans h2.symm)
    · exact hxy (h1.trans h2.symm)

/-- C7 counterexample: the stored (RUB→USD) rate is the decimal-rounded
quotient, which is not exactly `1 / 90.5` — `2/181` has no finite decimal
representation, so exact equality with the reciprocal fails. -/
theorem reciprocal_not_exact_counterexample :
    ((findRow ((update_stored_exchange_rates 20098 [(("USD"), ⟨905, 1⟩)]
        (("USD") :: []) ⟨[], 0⟩ 0).1.store) rub ("USD") 20098).map (·.rate) =
      some ⟨110497237569060773480662983, 28⟩) ∧
    Decimal.toRat ⟨110497237569060773480662983, 28⟩ ≠
      1 / Decimal.toRat ⟨905, 1⟩ := by
  refine ⟨by decide, ?_⟩
  norm_num [Decimal.toRat]

/-- C7 (amended): for every tracked currency `C` on a successfully
reconciled date, the store afterwards holds exactly two rows for `(C, D)` —
(`C`→base, `D`) and (base→`C`, `D`) — where the direct row holds the fetched
rate `r` and the reverse row holds the value of `1 / r` computed by decimal
division (the exact rational reciprocal whenever that is representable in
28 fractional digits; otherwise the rounded decimal quotient, so exact
reciprocal equality does not hold in general). -/
theorem reciprocal_pair_rows (d : ℤ) (rates : List (String × Decimal))
    (cs : List String) (c : String) (s s' : Store) (now : ℤ)
    (hWF : StoreWF s) (hKU : KeyUnique s) (hInv : CanInv c d s)
    (hnd : cs.Nodup) (hrub : rub ∉ cs) (hc : c ∈ cs)
    (h : (update_stored_exchange_rates d rates cs s now).1 = .ok s') :
    ∃ r rv, mapGet rates c = some r ∧ r.isZero = false ∧
      Decimal.checkedDiv Decimal.one r = some rv ∧
      (∃ row1, findRow s' c rub d = some row1 ∧
        row1.rate.valEq r = true) ∧
      (∃ row2, findRow s' rub c d = some row2 ∧
        row2.rate.valEq rv = true) ∧
      (rowsFor s' c d).length = 2 := by
  obtain ⟨r, hr, hz, rv, hrv⟩ := update_ok_good d rates now cs s s' h c hc
  have hcr : c ≠ rub := fun hh => hrub (hh ▸ hc)
  have hs' := update_ok_store d rates now cs s s' h
  subst hs'
  obtain ⟨⟨row1, hrow1, hval1⟩, ⟨row2, hrow2, hval2⟩⟩ :=
    findRow_runStore_self d rates now cs s c r rv hWF hnd hrub hc hr hrv
  refine ⟨r, rv, hr, hz, hrv, ⟨row1, hrow1, hval1⟩, ⟨row2, hrow2, hval2⟩, ?_⟩
  have hInv' := CanInv_runStore d rates now cs s c hInv hcr
  have hKU' := KeyUnique_runStore d rates now cs s hWF hKU
  have hk1 := List.find?_some (findRow_eq _ c rub d ▸ hrow1)
  have hk2 := List.find?_some (findRow_eq _ rub c d ▸ hrow2)
  simp only [Bool.and_eq_true, beq_iff_eq] at hk1 hk2
  have hkey1 : KeyAt row1 = (c, rub, d) := by
    rw [KeyAt, hk1.1.1, hk1.1.2, hk1.2]
  have hkey2 : KeyAt row2 = (rub, c, d) := by
    rw [KeyAt, hk2.1.1, hk2.1.2, hk2.2]
  have hmem1 := List.mem_of_find?_eq_some (findRow_eq _ c rub d ▸ hrow1)
  have hmem2 := List.mem_of_find?_eq_some (findRow_eq _ rub c d ▸ hrow2)
  refine length_eq_two_of_keys _ (c, rub, d) (rub, c, d) ?_ ?_ row1 row2
    ?_ ?_ hkey1 hkey2 ?_
  · intro x hx
    have hx' := List.mem_filter.mp hx
    have hpx := hx'.2
    simp only [Bool.and_eq_true, Bool.or_eq_true, beq_iff_eq] at hpx
    rcases hInv' x hx'.1 hpx.1 hpx.2 with hcase | hcase
    · exact .inl (by rw [KeyAt, hcase.1, hcase.2, hpx.2])
    · exact .inr (by rw [KeyAt, hcase.1, hcase.2, hpx.2])
  · exact List.Pairwise.sublist (List.filter_sublist _) hKU'
  · exact List.mem_filter.mpr ⟨hmem1, by
      simp only [Bool.and_eq_true, Bool.or_eq_true, beq_iff_eq]
      exact ⟨.inl hk1.1.1, hk1.2⟩⟩
  · exact List.mem_filter.mpr ⟨hmem2, by
      simp only [Bool.and_eq_true, Bool.or_eq_true, beq_iff_eq]
      exact ⟨.inr hk2.1.2, hk2.2⟩⟩
  · intro hh
    exact hcr (congrArg (·.1) hh)

/-- Witness for C7: the single-currency run (USD, rate 90.5) on an empty
store leaves exactly two rows for (USD, day 20098), with the direct and
decimal-reciprocal values. -/
theorem reciprocal_pair_rows_witness :
    (rowsFor ((update_stored_exchange_rates 20098 [(("USD"), ⟨905, 1⟩)]
        (("USD") :: []) ⟨[], 0⟩ 0).1.store) ("USD") 20098).length = 2 ∧
    (∃ row1, findRow ((update_stored_exchange_rates 20098
        [(("USD"), ⟨905, 1⟩)] (("USD") :: []) ⟨[], 0⟩ 0).1.store)
        ("USD") rub 20098 = some row1 ∧
      row1.rate.valEq ⟨905, 1⟩ = true) ∧
    (∃ row2, findRow ((update_stored_exchange_rates 20098
        [(("USD"), ⟨905, 1⟩)] (("USD") :: []) ⟨[], 0⟩ 0).1.store)
        rub ("USD") 20098 = some row2 ∧
      row2.rate.valEq ⟨110497237569060773480662983, 28⟩ = true) := by
  obtain ⟨r, rv, hr, hz, hrv, h1, h2, hlen⟩ := reciprocal_pair_rows 20098
    [(("USD"), ⟨905, 1⟩)] (("USD") :: []) ("USD") ⟨[], 0⟩
    ((update_stored_exchange_rates 20098 [(("USD"), ⟨905, 1⟩)]
      (("USD") :: []) ⟨[], 0⟩ 0).1.store) 0
    ⟨by simp, by simp⟩ (by simp [KeyUnique]) (fun x hx => absurd hx (by simp))
    (by decide) (by decide) (by decide) (by decide)
  have hrr : r = ⟨905, 1⟩ := by
    rw [show mapGet [(("USD"), ⟨905, 1⟩)] ("USD") = some ⟨905, 1⟩
      from by decide] at hr
    exact (Option.some.injEq _ _ ▸ hr).symm
  subst hrr
  have hrvv : rv = ⟨110497237569060773480662983, 28⟩ := by
    rw [show Decimal.checkedDiv Decimal.one ⟨905, 1⟩ =
      some ⟨110497237569060773480662983, 28⟩ from by decide] at hrv
    exact (Option.some.injEq _ _ ▸ hrv).symm
  subst hrvv
  exact ⟨hlen, h1, h2⟩

/-! ## Claim C9: scientific notation and comma normalization -/

/-- C9: after comma normalization, the parser splits a scientific-notation
literal at the exponent marker, parses mantissa and exponent, builds ten to
the absolute exponent by repeated checked multiplication (exactly `10 ^ k`
while it fits), and multiplies for a non-negative exponent or divides for a
negative one; `"1.5E2"` parses to exactly 150 and `"3,14"` to exactly
3.14. -/
theorem parse_sci_literal :
    (parse_decimal_string (normalize_decimal_string (("3,14").data)) =
      some ⟨314, 2⟩ ∧ Decimal.toRat ⟨314, 2⟩ = 3.14) ∧
    (parse_decimal_string (("1.5E2").data) = some ⟨1500, 1⟩ ∧
      Decimal.toRat ⟨1500, 1⟩ = 150) ∧
    (∀ k, k ≤ 28 → tenPowChecked k = some ⟨(10 : ℤ) ^ k, 0⟩) ∧
    (∀ (cs : List Char) (i : ℕ) (m : Decimal) (ex : ℤ) (p : Decimal),
      cs.findIdx? (fun c => c = 'e' || c = 'E') = some i →
      decFromChars (cs.take i) = some m →
      parseI32 (cs.drop (i + 1)) = some ex →
      tenPowChecked (i32Abs ex).toNat = some p →
      parse_decimal_string cs =
        if 0 ≤ ex then m.checkedMul p else m.checkedDiv p) := by
  refine ⟨⟨by decide, by norm_num [Decimal.toRat]⟩,
    ⟨by decide, by norm_num [Decimal.toRat]⟩, ?_, ?_⟩
  · intro k hk
    induction k with
    | zero => rfl
    | succ n ih =>
      rw [tenPowChecked, ih (by omega)]
      show Decimal.checkedMul ⟨(10 : ℤ) ^ n, 0⟩ ⟨10, 0⟩ = some ⟨(10 : ℤ) ^ (n + 1), 0⟩
      show reduceCap ((10 : ℤ) ^ n * 10) (0 + 0) = some ⟨(10 : ℤ) ^ (n + 1), 0⟩
      rw [show (0 + 0 : ℕ) = 0 from rfl]
      simp only [reduceCap]
      rw [if_pos]
      · rw [← pow_succ]
      · show ((10 : ℤ) ^ n * 10).natAbs < decCap
        have : ((10 : ℤ) ^ n * 10).natAbs = 10 ^ (n + 1) := by
          rw [pow_succ]
          simp [Int.natAbs_mul, Int.natAbs_pow]
        rw [this]
        calc 10 ^ (n + 1) ≤ 10 ^ 28 :=
              Nat.pow_le_pow_right (by omega) (by omega)
          _ < decCap := by decide
  · intro cs i m ex p hi hm he hp
    rw [parse_decimal_string, hi]
    simp only [Option.bind_eq_bind, hm, Option.some_bind, he, hp]

/-- Witness for C9 at the concrete inputs of the claim. -/
theorem parse_sci_literal_witness :
    parse_decimal_string (normalize_decimal_string (("3,14").data)) =
      some ⟨314, 2⟩ ∧
    parse_decimal_string (("1.5E2").data) = some ⟨1500, 1⟩ ∧
    tenPowChecked 2 = some ⟨100, 0⟩ ∧
    parse_decimal_string (("1.5E2").data) =
      Decimal.checkedMul ⟨15, 1⟩ ⟨100, 0⟩ ∧
    parse_decimal_string (("1.23E-4").data) =
      Decimal.checkedDiv ⟨123, 2⟩ ⟨10000, 0⟩ := by
  obtain ⟨⟨h314, _⟩, ⟨h150, _⟩, hpow, hsplit⟩ := parse_sci_literal
  refine ⟨h314, h150, ?_, ?_, ?_⟩
  · have := hpow 2 (by omega)
    rwa [show ((10 : ℤ) ^ 2 : ℤ) = 100 from by norm_num] at this
  · have := hsplit (("1.5E2").data) 3 ⟨15, 1⟩ 2 ⟨100, 0⟩ (by decide)
      (by decide) (by decide)
      (by rw [show (i32Abs 2).toNat = 2 from by decide]
          have h2 := hpow 2 (by omega)
          rwa [show ((10 : ℤ) ^ 2 : ℤ) = 100 from by norm_num] at h2)
    rwa [if_pos (by omega)] at this
  · have := hsplit (("1.23E-4").data) 4 ⟨123, 2⟩ (-4) ⟨10000, 0⟩ (by decide)
      (by decide) (by decide)
      (by rw [show (i32Abs (-4)).toNat = 4 from by decide]
          have h4 := hpow 4 (by omega)
          rwa [show ((10 : ℤ) ^ 4 : ℤ) = 10000 from by norm_num] at h4)
    rwa [if_neg (by omega)] at this

/-! ## Claim C10: totality of the rate parser -/

/-- C10: the parser is a total function into `Option`; an unparseable
mantissa, an unparseable exponent, and a ten-power overflow (the checked
multiplication loop fails from 29 digits up) each yield `none` — never a
panic (release overflow semantics) or a wrapped value — and `get_curs_map`
simply omits feed entries whose rate fails to parse. -/
theorem parser_total_failures_yield_none :
    (∀ (cs : List Char) (i : ℕ),
      cs.findIdx? (fun c => c = 'e' || c = 'E') = some i →
      decFromChars (cs.take i) = none → parse_decimal_string cs = none) ∧
    (∀ (cs : List Char) (i : ℕ),
      cs.findIdx? (fun c => c = 'e' || c = 'E') = some i →
      parseI32 (cs.drop (i + 1)) = none → parse_decimal_string cs = none) ∧
    (∀ k, 29 ≤ k → tenPowChecked k = none) ∧
    (∀ (cs : List Char) (i : ℕ) (m : Decimal) (ex : ℤ),
      cs.findIdx? (fun c => c = 'e' || c = 'E') = some i →
      decFromChars (cs.take i) = some m →
      parseI32 (cs.drop (i + 1)) = some ex →
      tenPowChecked (i32Abs ex).toNat = none →
      parse_decimal_string cs = none) ∧
    (∀ (pre post : List Valute) (v : Valute),
      parse_decimal_string (normalize_decimal_string v.vunit_rate.data) =
        none →
      get_curs_map ⟨pre ++ v :: post⟩ = get_curs_map ⟨pre ++ post⟩) := by
  have hpow : ∀ k, 29 ≤ k → tenPowChecked k = none := by
    intro k hk
    induction k with
    | zero => omega
    | succ n ih =>
      by_cases hn : 29 ≤ n
      · rw [tenPowChecked, ih hn]
        rfl
      · have hn28 : n = 28 := by omega
        subst hn28
        decide
  refine ⟨?_, ?_, hpow, ?_, ?_⟩
  · intro cs i hi hm
    rw [parse_decimal_string, hi]
    simp only [hm, Option.bind_eq_bind, Option.none_bind]
  · intro cs i hi he
    rw [parse_decimal_string, hi]
    cases hdm : decFromChars (cs.take i) with
    | none => simp [hdm]
    | some m => simp [hdm, he]
  · intro cs i m ex hi hm he hp
    rw [parse_decimal_string, hi]
    simp only [Option.bind_eq_bind, hm, Option.some_bind, he, hp,
      Option.none_bind]
  · intro pre post v hv
    rw [get_curs_map, get_curs_map]
    simp only
    rw [List.foldl_append, List.foldl_append, List.foldl_cons, hv]

/-- Witness for C10: an unparseable mantissa, an unparseable exponent, a
ten-power overflow, and an omitted feed entry. -/
theorem parser_total_failures_yield_none_witness :
    parse_decimal_string (("xE5").data) = none ∧
    parse_decimal_string (("1Ex").data) = none ∧
    tenPowChecked 40 = none ∧
    parse_decimal_string (("1E40").data) = none ∧
    get_curs_map ⟨[⟨("BAD"), ("L0L")⟩, ⟨("USD"), ("90,5")⟩]⟩ =
      get_curs_map ⟨[⟨("USD"), ("90,5")⟩]⟩ := by
  obtain ⟨hm, he, hpow, hover, homit⟩ := parser_total_failures_yield_none
  refine ⟨hm (("xE5").data) 1 (by decide) (by decide),
    he (("1Ex").data) 1 (by decide) (by decide),
    hpow 40 (by omega),
    hover (("1E40").data) 1 ⟨1, 0⟩ 40 (by decide) (by decide) (by decide)
      (by rw [show (i32Abs 40).toNat = 40 from by decide]
          exact hpow 40 (by omega)),
    homit [] [⟨("USD"), ("90,5")⟩] ⟨("BAD"), ("L0L")⟩ (by decide)⟩

end Valut
